import Mathlib

/-!
Verification of the orbital-cdn-simulation repository.

This file gives a shallow embedding, in Lean 4, of the parts of the
repository that the specification talks about:

* advanced_caching.py : LRUCache, LFUCache, FIFOCache, AdaptiveCache
* ntn_network_simulation.py : NetworkMetrics, LRUCache, SatelliteNode
* realistic_content_catalog.py : ContentItem, get_content_by_id
* satellite_constellation.py : SatellitePosition, ConstellationSatellite,
  SatelliteConstellation.get_nearest_satellites,
  ConstellationSatellite.request_content_from_neighbor

Modelling conventions, used throughout:

* Python dictionaries / OrderedDicts are modelled as association lists in
  insertion order; popitem(last=False) is the head of the list,
  appending is insertion at the end.
* Cached values (Python type Any) are modelled by the type PyVal of
  integers and strings, with Python truthiness given by truthy.
* Wall-clock timestamps (time.time()) and the unused metadata fields of
  CacheItem / ContentItem (title, description, popularity, ...) are
  dropped: no behaviour the specification describes depends on them.
* Machine floats are modelled by rationals.
* A Python method that can raise an uncaught exception, or not
  terminate, is modelled as returning an Option, with none for the
  exceptional / divergent outcome.
-/

/-- Model of a Python value stored in a cache (Python type Any).
Only the shapes exercised by the repository and its tests are needed:
integers and strings. -/
inductive PyVal where
  | int (n : Int)
  | str (s : String)
deriving DecidableEq

/-- Python truthiness of a value: 0 and the empty string are falsy. -/
def PyVal.truthy : PyVal → Bool
  | .int n => n != 0
  | .str s => s != ""

/-- Python truthiness of an Optional value: None is falsy. -/
def truthyOpt : Option PyVal → Bool
  | none => false
  | some v => v.truthy

section AssocHelpers

variable {κ : Type} [DecidableEq κ] {α : Type}

/-- Keys of an association list, in order. -/
def keysOf (l : List (κ × α)) : List κ := l.map Prod.fst

/-- Lookup in an association list (first matching key), modelling
Python dict access. -/
def lookupKV : List (κ × α) → κ → Option α
  | [], _ => none
  | p :: t, k => if p.1 = k then some p.2 else lookupKV t k

/-- Remove the first entry with the given key, modelling Python del. -/
def eraseKV : List (κ × α) → κ → List (κ × α)
  | [], _ => []
  | p :: t, k => if p.1 = k then t else p :: eraseKV t k

/-- Replace the value at the first entry with the given key, keeping its
position, modelling in-place mutation of the stored object. -/
def updateKV : List (κ × α) → κ → α → List (κ × α)
  | [], _, _ => []
  | p :: t, k, v => if p.1 = k then (k, v) :: t else p :: updateKV t k v

theorem lookupKV_eq_none {l : List (κ × α)} {k : κ} :
    lookupKV l k = none ↔ k ∉ keysOf l := by
  induction l with
  | nil => simp [lookupKV, keysOf]
  | cons p t ih =>
    by_cases h : p.1 = k
    · subst h
      simp [lookupKV, keysOf]
    · have h2 : ¬ k = p.1 := fun he => h he.symm
      simp only [lookupKV, if_neg h, keysOf, List.map_cons, List.mem_cons]
      rw [ih]
      simp [keysOf, h2]

theorem lookupKV_isSome_iff {l : List (κ × α)} {k : κ} :
    (lookupKV l k).isSome = true ↔ k ∈ keysOf l := by
  rcases h : lookupKV l k with _ | v
  · simp [lookupKV_eq_none.mp h]
  · simp only [Option.isSome_some, true_iff]
    by_contra hk
    rw [lookupKV_eq_none.mpr hk] at h
    exact Option.noConfusion h

theorem lookupKV_eq_some_mem {l : List (κ × α)} {k : κ} {v : α}
    (h : lookupKV l k = some v) : (k, v) ∈ l := by
  induction l with
  | nil => exact absurd h (by simp [lookupKV])
  | cons p t ih =>
    by_cases hp : p.1 = k
    · simp only [lookupKV, hp, if_true, Option.some.injEq] at h
      have hpv : p = (k, v) := by
        cases p
        simp only [Prod.mk.injEq]
        exact ⟨hp, h⟩
      rw [← hpv]
      exact List.mem_cons_self _ _
    · simp only [lookupKV, hp, if_false] at h
      exact List.mem_cons_of_mem _ (ih h)

theorem mem_lookupKV_of_nodup {l : List (κ × α)} {k : κ} {v : α}
    (hnd : (keysOf l).Nodup) (h : (k, v) ∈ l) : lookupKV l k = some v := by
  induction l with
  | nil => exact absurd h (List.not_mem_nil _)
  | cons p t ih =>
    simp only [keysOf, List.map_cons, List.nodup_cons] at hnd
    rcases List.mem_cons.mp h with h | h
    · subst h; simp [lookupKV]
    · have hk : p.1 ≠ k := by
        intro he
        exact hnd.1 (he ▸ (List.mem_map.mpr ⟨(k, v), h, rfl⟩))
      simp only [lookupKV, hk, if_false]
      exact ih hnd.2 h

theorem mem_keysOf_eraseKV {l : List (κ × α)} {k k' : κ}
    (h : k' ∈ keysOf (eraseKV l k)) : k' ∈ keysOf l := by
  induction l with
  | nil => simpa [eraseKV] using h
  | cons p t ih =>
    by_cases hp : p.1 = k
    · simp only [eraseKV, hp, if_true] at h
      simp [keysOf, List.mem_cons]
      right
      simpa [keysOf] using h
    · simp only [eraseKV, hp, if_false, keysOf, List.map_cons, List.mem_cons] at h ⊢
      rcases h with h | h
      · exact Or.inl h
      · exact Or.inr (ih (by simpa [keysOf] using h))

theorem not_mem_keysOf_eraseKV_self {l : List (κ × α)} {k : κ}
    (hnd : (keysOf l).Nodup) : k ∉ keysOf (eraseKV l k) := by
  induction l with
  | nil => simp [eraseKV, keysOf]
  | cons p t ih =>
    simp only [keysOf, List.map_cons, List.nodup_cons] at hnd
    by_cases hp : p.1 = k
    · subst hp
      simp only [eraseKV, if_true]
      intro hk
      exact hnd.1 (by simpa [keysOf] using hk)
    · simp only [eraseKV, hp, if_false, keysOf, List.map_cons, List.mem_cons]
      intro hk
      rcases hk with hk | hk
      · exact hp hk.symm
      · exact ih hnd.2 (by simpa [keysOf] using hk)

theorem nodup_keysOf_eraseKV {l : List (κ × α)} {k : κ}
    (hnd : (keysOf l).Nodup) : (keysOf (eraseKV l k)).Nodup := by
  induction l with
  | nil => simp [eraseKV, keysOf]
  | cons p t ih =>
    simp only [keysOf, List.map_cons, List.nodup_cons] at hnd
    by_cases hp : p.1 = k
    · simpa only [eraseKV, hp, if_true] using hnd.2
    · simp only [eraseKV, hp, if_false, keysOf, List.map_cons, List.nodup_cons]
      refine ⟨fun hm => hnd.1 (mem_keysOf_eraseKV (by simpa [keysOf] using hm)), ?_⟩
      exact ih hnd.2

theorem keysOf_updateKV {l : List (κ × α)} {k : κ} {v : α} :
    keysOf (updateKV l k v) = keysOf l := by
  induction l with
  | nil => simp [updateKV]
  | cons p t ih =>
    by_cases h : p.1 = k
    · subst h
      simp [updateKV, keysOf]
    · simp only [updateKV, h, if_false, keysOf, List.map_cons, List.cons.injEq, true_and]
      simpa [keysOf] using ih

theorem length_updateKV {l : List (κ × α)} {k : κ} {v : α} :
    (updateKV l k v).length = l.length := by
  have := @keysOf_updateKV κ _ α l k v
  simpa [keysOf] using congrArg List.length this

theorem keysOf_append {l m : List (κ × α)} :
    keysOf (l ++ m) = keysOf l ++ keysOf m := by
  simp [keysOf]

theorem length_eraseKV_of_mem {l : List (κ × α)} {k : κ}
    (h : k ∈ keysOf l) : (eraseKV l k).length + 1 = l.length := by
  induction l with
  | nil => simp [keysOf] at h
  | cons p t ih =>
    by_cases hp : p.1 = k
    · simp [eraseKV, hp]
    · have ht : k ∈ keysOf t := by
        rcases (by simpa [keysOf] using h : k = p.1 ∨ k ∈ keysOf t) with h | h
        · exact absurd h.symm hp
        · exact h
      simp [eraseKV, hp, ih ht]

theorem lookupKV_updateKV_self {l : List (κ × α)} {k : κ} {v : α}
    (h : k ∈ keysOf l) : lookupKV (updateKV l k v) k = some v := by
  induction l with
  | nil => simp [keysOf] at h
  | cons p t ih =>
    by_cases hp : p.1 = k
    · simp [updateKV, lookupKV, hp]
    · have ht : k ∈ keysOf t := by
        rcases (by simpa [keysOf] using h : k = p.1 ∨ k ∈ keysOf t) with h | h
        · exact absurd h.symm hp
        · exact h
      simp [updateKV, lookupKV, hp, ih ht]

theorem lookupKV_updateKV_ne {l : List (κ × α)} {k k' : κ} {v : α}
    (h : k ≠ k') : lookupKV (updateKV l k v) k' = lookupKV l k' := by
  induction l with
  | nil => simp [updateKV]
  | cons p t ih =>
    by_cases hp : p.1 = k
    · simp [updateKV, lookupKV, hp, h]
    · by_cases hq : p.1 = k' <;> simp [updateKV, lookupKV, hp, hq, Ne.symm h, ih]

theorem lookupKV_eraseKV_ne {l : List (κ × α)} {k k' : κ}
    (h : k ≠ k') : lookupKV (eraseKV l k) k' = lookupKV l k' := by
  induction l with
  | nil => simp [eraseKV]
  | cons p t ih =>
    by_cases hp : p.1 = k
    · subst hp
      simp [eraseKV, lookupKV, h, Ne.symm h]
    · by_cases hq : p.1 = k' <;> simp [eraseKV, lookupKV, hp, hq, Ne.symm h, ih]

theorem lookupKV_append_left {l m : List (κ × α)} {k : κ} {v : α}
    (h : lookupKV l k = some v) : lookupKV (l ++ m) k = some v := by
  induction l with
  | nil => simp [lookupKV] at h
  | cons p t ih =>
    by_cases hp : p.1 = k <;> simp [lookupKV, hp] at h ⊢ <;> simp_all [ih]

theorem lookupKV_append_right {l m : List (κ × α)} {k : κ}
    (h : lookupKV l k = none) : lookupKV (l ++ m) k = lookupKV m k := by
  induction l with
  | nil => simp
  | cons p t ih =>
    by_cases hp : p.1 = k <;> simp [lookupKV, hp] at h ⊢ <;> simp_all [ih]

theorem nodup_keysOf_updateKV {l : List (κ × α)} {k : κ} {v : α}
    (h : (keysOf l).Nodup) : (keysOf (updateKV l k v)).Nodup := by
  rwa [keysOf_updateKV]

end AssocHelpers

/-! ## advanced_caching.py -/

namespace AdvCache

/-- Model of CacheItem from advanced_caching.py.  The wall-clock fields
last_access_time and insert_time are dropped (no modelled behaviour
reads them); content and access_count are kept. -/
structure Item where
  content : PyVal
  accessCount : Nat
deriving DecidableEq

/-- Shared state shape of LRUCache and FIFOCache from
advanced_caching.py: an ordered map of entries plus counters. -/
structure BState where
  capacity : Int
  entries : List (String × Item)
  hits : Nat
  misses : Nat
  evictions : Nat
deriving DecidableEq

namespace LRUCache

/-- LRUCache.__init__(capacity): no validation is performed on the
capacity. -/
def init (capacity : Int) : BState :=
  { capacity := capacity, entries := [], hits := 0, misses := 0, evictions := 0 }

/-- LRUCache.get: on a hit the entry is moved to the end (most recently
used) and the hit counter is incremented; on a miss the miss counter is
incremented and None is returned. -/
def get (s : BState) (cid : String) : Option PyVal × BState :=
  match lookupKV s.entries cid with
  | some it =>
    (some it.content,
      { s with entries := eraseKV s.entries cid ++ [(cid, it)], hits := s.hits + 1 })
  | none => (none, { s with misses := s.misses + 1 })

/-- LRUCache.put: if the id is present the entry is only moved to the
end (the stored content is not replaced); otherwise, if the cache is
full, the least recently used entry (list head) is evicted first.
popitem on an empty OrderedDict raises KeyError, modelled by none. -/
def put (s : BState) (cid : String) (v : PyVal) : Option BState :=
  match lookupKV s.entries cid with
  | some it => some { s with entries := eraseKV s.entries cid ++ [(cid, it)] }
  | none =>
    if (s.entries.length : Int) ≥ s.capacity then
      match s.entries with
      | [] => none
      | _ :: rest =>
        some { s with entries := rest ++ [(cid, ⟨v, 0⟩)], evictions := s.evictions + 1 }
    else
      some { s with entries := s.entries ++ [(cid, ⟨v, 0⟩)] }

/-- LRUCache.contains: membership test, no mutation in the source. -/
def containsB (s : BState) (cid : String) : Bool :=
  (lookupKV s.entries cid).isSome

end LRUCache

namespace FIFOCache

/-- FIFOCache.__init__(capacity): no validation is performed. -/
def init (capacity : Int) : BState :=
  { capacity := capacity, entries := [], hits := 0, misses := 0, evictions := 0 }

/-- FIFOCache.get: on a hit the access count is bumped but the order is
unchanged; counters updated as in the source. -/
def get (s : BState) (cid : String) : Option PyVal × BState :=
  match lookupKV s.entries cid with
  | some it =>
    (some it.content,
      { s with entries := updateKV s.entries cid { it with accessCount := it.accessCount + 1 },
               hits := s.hits + 1 })
  | none => (none, { s with misses := s.misses + 1 })

/-- FIFOCache.put: a new id may evict the oldest entry (list head); an
existing id has its stored content replaced in place. -/
def put (s : BState) (cid : String) (v : PyVal) : Option BState :=
  match lookupKV s.entries cid with
  | some it => some { s with entries := updateKV s.entries cid { it with content := v } }
  | none =>
    if (s.entries.length : Int) ≥ s.capacity then
      match s.entries with
      | [] => none
      | _ :: rest =>
        some { s with entries := rest ++ [(cid, ⟨v, 0⟩)], evictions := s.evictions + 1 }
    else
      some { s with entries := s.entries ++ [(cid, ⟨v, 0⟩)] }

/-- FIFOCache.contains: membership test, no mutation in the source. -/
def containsB (s : BState) (cid : String) : Bool :=
  (lookupKV s.entries cid).isSome

end FIFOCache

/-- State of LFUCache from advanced_caching.py.  The frequency_map
(a defaultdict of OrderedDicts) is an association list from frequency to
the bucket of content ids in insertion order; the bucket stores ids
only, since the items themselves live in the cache map (in Python the
buckets alias the same item objects). -/
structure LfuState where
  capacity : Int
  cache : List (String × Item)
  freqMap : List (Nat × List String)
  minFreq : Nat
  hits : Nat
  misses : Nat
  evictions : Nat
deriving DecidableEq

namespace LFUCache

/-- LFUCache.__init__(capacity): no validation is performed. -/
def init (capacity : Int) : LfuState :=
  { capacity := capacity, cache := [], freqMap := [], minFreq := 0,
    hits := 0, misses := 0, evictions := 0 }

/-- Assignment frequency_map[f][cid] = item on a defaultdict of
OrderedDicts: creates the bucket if absent, appends the id at the end
if the id is new, keeps its position otherwise. -/
def appendF (fm : List (Nat × List String)) (f : Nat) (cid : String) :
    List (Nat × List String) :=
  match lookupKV fm f with
  | some b => updateKV fm f (if cid ∈ b then b else b ++ [cid])
  | none => fm ++ [(f, [cid])]

/-- LFUCache.get: on a hit, bump the item's access count, move its id
from the old frequency bucket to the end of the new one, advance
min_frequency when the old bucket at min_frequency empties, and count a
hit. -/
def get (s : LfuState) (cid : String) : Option PyVal × LfuState :=
  match lookupKV s.cache cid with
  | none => (none, { s with misses := s.misses + 1 })
  | some it =>
    let oldf := it.accessCount
    let cache2 := updateKV s.cache cid { it with accessCount := oldf + 1 }
    let fmmf :=
      match lookupKV s.freqMap oldf with
      | none => (s.freqMap, s.minFreq)
      | some b =>
        if cid ∈ b then
          let b2 := b.erase cid
          (updateKV s.freqMap oldf b2,
            if b2 = [] ∧ oldf = s.minFreq then s.minFreq + 1 else s.minFreq)
        else (s.freqMap, s.minFreq)
    (some it.content,
      { s with cache := cache2, freqMap := appendF fmmf.1 (oldf + 1) cid,
               minFreq := fmmf.2, hits := s.hits + 1 })

/-- Minimum of a list of naturals, none on the empty list. -/
def minList : List Nat → Option Nat
  | [] => none
  | a :: t =>
    match minList t with
    | none => some a
    | some b => some (min a b)

/-- The while loop of LFUCache.put: starting from min_frequency, find
the least frequency whose bucket exists and is nonempty.  none models
the loop never terminating (no such frequency at or above the start). -/
def findEvict (fm : List (Nat × List String)) (start : Nat) : Option Nat :=
  minList ((fm.filter (fun q => start ≤ q.1 && !q.2.isEmpty)).map Prod.fst)

/-- The insertion tail of LFUCache.put: new item with access count 1,
id appended to bucket 1, min_frequency reset to 1. -/
def insertNew (s : LfuState) (cid : String) (v : PyVal) : LfuState :=
  { s with cache := s.cache ++ [(cid, ⟨v, 1⟩)],
           freqMap := appendF s.freqMap 1 cid, minFreq := 1 }

/-- LFUCache.put: an existing id is routed through get (bumping its
frequency and the hit counter) and then has its content overwritten in
place; a new id may first evict the head of the least nonempty
frequency bucket at or above min_frequency. -/
def put (s : LfuState) (cid : String) (v : PyVal) : Option LfuState :=
  match lookupKV s.cache cid with
  | some _ =>
    let s2 := (get s cid).2
    match lookupKV s2.cache cid with
    | some it2 => some { s2 with cache := updateKV s2.cache cid { it2 with content := v } }
    | none => none
  | none =>
    if (s.cache.length : Int) ≥ s.capacity then
      match findEvict s.freqMap s.minFreq with
      | none => none
      | some f =>
        match lookupKV s.freqMap f with
        | some (victim :: brest) =>
          some (insertNew
            { s with cache := eraseKV s.cache victim,
                     freqMap := updateKV s.freqMap f brest,
                     minFreq := f, evictions := s.evictions + 1 } cid v)
        | _ => none
    else
      some (insertNew s cid v)

/-- LFUCache.contains: membership test, no mutation in the source. -/
def containsB (s : LfuState) (cid : String) : Bool :=
  (lookupKV s.cache cid).isSome

end LFUCache

/-- The three strategy names of AdaptiveCache. -/
inductive Strat where
  | lru
  | lfu
  | fifo
deriving DecidableEq

/-- The strategy_performance table of AdaptiveCache: windowed
(hits, misses) per strategy. -/
structure Perf where
  lru : Nat × Nat
  lfu : Nat × Nat
  fifo : Nat × Nat
deriving DecidableEq

/-- One record of AdaptiveCache.strategy_history (the Python dict keys
from / to are named src / dst here, from being a Lean keyword). -/
structure SwitchRec where
  src : Strat
  dst : Strat
  hitRate : ℚ
  requestCount : Nat
deriving DecidableEq

/-- State of AdaptiveCache: one constituent cache per strategy, the
current strategy, the switch history, and the windowed performance
table. -/
structure AdState where
  capacity : Int
  lruCache : BState
  lfuCache : LfuState
  fifoCache : BState
  currentStrategy : Strat
  strategyHistory : List SwitchRec
  evaluationWindow : Nat
  requestCount : Nat
  perf : Perf
deriving DecidableEq

namespace AdaptiveCache

/-- AdaptiveCache.__init__(capacity): three constituent caches, LRU as
the initial strategy, evaluation window 100, all counters zero. -/
def init (capacity : Int) : AdState :=
  { capacity := capacity
    lruCache := LRUCache.init capacity
    lfuCache := LFUCache.init capacity
    fifoCache := FIFOCache.init capacity
    currentStrategy := .lru
    strategyHistory := []
    evaluationWindow := 100
    requestCount := 0
    perf := ⟨(0, 0), (0, 0), (0, 0)⟩ }

/-- Read one strategy's windowed (hits, misses) pair. -/
def getPerf (p : Perf) : Strat → Nat × Nat
  | .lru => p.lru
  | .lfu => p.lfu
  | .fifo => p.fifo

/-- Write one strategy's windowed (hits, misses) pair. -/
def setPerf (p : Perf) : Strat → Nat × Nat → Perf
  | .lru, q => { p with lru := q }
  | .lfu, q => { p with lfu := q }
  | .fifo, q => { p with fifo := q }

/-- The loop body of AdaptiveCache._evaluate_and_switch: keep the
strategy with the strictly greatest positive windowed hit rate seen so
far, skipping strategies with no recorded requests. -/
def evalStep (perf : Perf) (acc : Strat × ℚ) (st : Strat) : Strat × ℚ :=
  let p := getPerf perf st
  let total := p.1 + p.2
  if 0 < total then
    let rate := ((p.1 : ℚ) / (total : ℚ)) * 100
    if acc.2 < rate then (st, rate) else acc
  else acc

/-- AdaptiveCache._evaluate_and_switch: scan LRU, LFU, FIFO in order,
keeping the strategy with the strictly greatest positive windowed hit
rate; on a change of strategy, append a history record and reset the
whole performance table. -/
def evaluateAndSwitch (s : AdState) : AdState :=
  let best := [Strat.lru, Strat.lfu, Strat.fifo].foldl (evalStep s.perf) (s.currentStrategy, 0)
  if best.1 ≠ s.currentStrategy then
    { s with
      strategyHistory := s.strategyHistory ++
        [⟨s.currentStrategy, best.1, best.2, s.requestCount⟩]
      currentStrategy := best.1
      perf := ⟨(0, 0), (0, 0), (0, 0)⟩ }
  else s

/-- AdaptiveCache.get: bump the request counter, delegate to the
current strategy's cache, record the outcome (by Python truthiness of
the result) in the windowed table, and run the periodic evaluation
every evaluation_window requests. -/
def get (s : AdState) (cid : String) : Option PyVal × AdState :=
  let s1 := { s with requestCount := s.requestCount + 1 }
  let rs2 :=
    match s1.currentStrategy with
    | .lru =>
      let rc := LRUCache.get s1.lruCache cid
      (rc.1, { s1 with lruCache := rc.2 })
    | .lfu =>
      let rc := LFUCache.get s1.lfuCache cid
      (rc.1, { s1 with lfuCache := rc.2 })
    | .fifo =>
      let rc := FIFOCache.get s1.fifoCache cid
      (rc.1, { s1 with fifoCache := rc.2 })
  let res := rs2.1
  let s2 := rs2.2
  let old := getPerf s2.perf s2.currentStrategy
  let old2 := if truthyOpt res then (old.1 + 1, old.2) else (old.1, old.2 + 1)
  let s3 := { s2 with perf := setPerf s2.perf s2.currentStrategy old2 }
  let s4 := if s3.requestCount % s3.evaluationWindow = 0 then evaluateAndSwitch s3 else s3
  (res, s4)

/-- AdaptiveCache.put: delegate to the current strategy's cache. -/
def put (s : AdState) (cid : String) (v : PyVal) : Option AdState :=
  match s.currentStrategy with
  | .lru => (LRUCache.put s.lruCache cid v).map fun c => { s with lruCache := c }
  | .lfu => (LFUCache.put s.lfuCache cid v).map fun c => { s with lfuCache := c }
  | .fifo => (FIFOCache.put s.fifoCache cid v).map fun c => { s with fifoCache := c }

/-- AdaptiveCache.contains: delegate to the current strategy's cache;
no counter is touched in the source. -/
def containsB (s : AdState) (cid : String) : Bool :=
  match s.currentStrategy with
  | .lru => LRUCache.containsB s.lruCache cid
  | .lfu => LFUCache.containsB s.lfuCache cid
  | .fifo => FIFOCache.containsB s.fifoCache cid

end AdaptiveCache

/-- One call against a cache: the three public mutating or reading
operations of every cache class. -/
inductive Op where
  | get (cid : String)
  | put (cid : String) (v : PyVal)
  | containsQ (cid : String)
deriving DecidableEq

/-- One step of an LRUCache under an Op; none models an uncaught
exception. -/
def LRUCache.step (s : BState) : Op → Option BState
  | .get cid => some (LRUCache.get s cid).2
  | .put cid v => LRUCache.put s cid v
  | .containsQ _ => some s

/-- Run an LRUCache through a sequence of calls. -/
def LRUCache.run (s : BState) : List Op → Option BState
  | [] => some s
  | op :: t => (LRUCache.step s op).bind (fun s2 => LRUCache.run s2 t)

/-- One step of a FIFOCache under an Op. -/
def FIFOCache.step (s : BState) : Op → Option BState
  | .get cid => some (FIFOCache.get s cid).2
  | .put cid v => FIFOCache.put s cid v
  | .containsQ _ => some s

/-- Run a FIFOCache through a sequence of calls. -/
def FIFOCache.run (s : BState) : List Op → Option BState
  | [] => some s
  | op :: t => (FIFOCache.step s op).bind (fun s2 => FIFOCache.run s2 t)

/-- One step of an LFUCache under an Op. -/
def LFUCache.step (s : LfuState) : Op → Option LfuState
  | .get cid => some (LFUCache.get s cid).2
  | .put cid v => LFUCache.put s cid v
  | .containsQ _ => some s

/-- Run an LFUCache through a sequence of calls. -/
def LFUCache.run (s : LfuState) : List Op → Option LfuState
  | [] => some s
  | op :: t => (LFUCache.step s op).bind (fun s2 => LFUCache.run s2 t)

/-- One step of an AdaptiveCache under an Op. -/
def AdaptiveCache.step (s : AdState) : Op → Option AdState
  | .get cid => some (AdaptiveCache.get s cid).2
  | .put cid v => AdaptiveCache.put s cid v
  | .containsQ _ => some s

/-- Run an AdaptiveCache through a sequence of calls. -/
def AdaptiveCache.run (s : AdState) : List Op → Option AdState
  | [] => some s
  | op :: t => (AdaptiveCache.step s op).bind (fun s2 => AdaptiveCache.run s2 t)

end AdvCache

/-! ## ntn_network_simulation.py and realistic_content_catalog.py -/

namespace Ntn

/-- Model of NetworkMetrics from ntn_network_simulation.py with its
default field values; floats are modelled by rationals. -/
structure NetworkMetrics where
  satelliteLatencyMs : ℚ := 15
  groundLatencyMs : ℚ := 150
  satelliteBandwidthMbps : ℚ := 100
  groundBandwidthMbps : ℚ := 1000
  packetLossRate : ℚ := 1 / 1000
deriving DecidableEq

/-- NetworkMetrics.calculate_delivery_time(size_mb, from_satellite):
transfer time size * 8 / bandwidth plus latency in seconds, picking the
satellite or ground figures. -/
def NetworkMetrics.calculateDeliveryTime (m : NetworkMetrics) (sizeMb : ℚ)
    (fromSatellite : Bool) : ℚ :=
  let bandwidth := if fromSatellite then m.satelliteBandwidthMbps else m.groundBandwidthMbps
  let latency :=
    (if fromSatellite then m.satelliteLatencyMs else m.groundLatencyMs) / 1000
  sizeMb * 8 / bandwidth + latency

/-- The NetworkMetrics() instance a SatelliteNode is built with: all
defaults. -/
def defaultMetrics : NetworkMetrics := {}

/-- Model of ContentItem from realistic_content_catalog.py, keeping the
fields the modelled behaviour reads: content_id and size_mb.  (title,
content_type, description, popularity_score, category and metadata are
carried along by the code but never branch on.) -/
structure ContentItem where
  contentId : String
  sizeMb : ℚ
deriving DecidableEq

/-- get_content_by_id over a catalog list: first item with the given
id, None when absent. -/
def getContentById (catalog : List ContentItem) (cid : String) : Option ContentItem :=
  match catalog with
  | [] => none
  | it :: t => if it.contentId = cid then some it else getContentById t cid

/-- State of the LRUCache class of ntn_network_simulation.py (it stores
ContentItem values and keeps no per-item metadata). -/
structure NState where
  capacity : Int
  entries : List (String × ContentItem)
  hits : Nat
  misses : Nat
  evictions : Nat
deriving DecidableEq

namespace LRUCache

/-- LRUCache.__init__(capacity) of ntn_network_simulation.py: no
validation is performed on the capacity. -/
def init (capacity : Int) : NState :=
  { capacity := capacity, entries := [], hits := 0, misses := 0, evictions := 0 }

/-- LRUCache.get of ntn_network_simulation.py: on a hit, move to end,
count a hit and return the item; on a miss count a miss. -/
def get (s : NState) (cid : String) : Option ContentItem × NState :=
  match lookupKV s.entries cid with
  | some it =>
    (some it, { s with entries := eraseKV s.entries cid ++ [(cid, it)], hits := s.hits + 1 })
  | none => (none, { s with misses := s.misses + 1 })

/-- LRUCache.put of ntn_network_simulation.py: an existing id is only
moved to the end (content not replaced); a new id may first evict the
list head.  popitem on an empty OrderedDict raises KeyError, modelled
by none. -/
def put (s : NState) (cid : String) (v : ContentItem) : Option NState :=
  match lookupKV s.entries cid with
  | some it => some { s with entries := eraseKV s.entries cid ++ [(cid, it)] }
  | none =>
    if (s.entries.length : Int) ≥ s.capacity then
      match s.entries with
      | [] => none
      | _ :: rest =>
        some { s with entries := rest ++ [(cid, v)], evictions := s.evictions + 1 }
    else
      some { s with entries := s.entries ++ [(cid, v)] }

/-- LRUCache.contains of ntn_network_simulation.py. -/
def containsB (s : NState) (cid : String) : Bool :=
  (lookupKV s.entries cid).isSome

end LRUCache

/-- Terminal status of one request in SatelliteNode.request_content. -/
inductive Status where
  | HIT
  | MISS
  | ERROR
deriving DecidableEq

/-- The fields of the request_content log entry the claims are about:
the status and the delivery_time value (for a MISS the source stores
the whole round-trip total_time in delivery_time; for an ERROR it
stores 0). -/
structure ReqResult where
  status : Status
  deliveryTime : ℚ
deriving DecidableEq

/-- State of a SatelliteNode: its cache, metrics and statistics.  The
simpy environment, request log and connection banner fields carry no
modelled behaviour. -/
structure Node where
  cache : NState
  metrics : NetworkMetrics
  totalRequests : Nat
  totalContentDeliveredMb : ℚ
deriving DecidableEq

/-- SatelliteNode.__init__(env, satellite_id, cache_size): an LRU cache
of the given size and default NetworkMetrics. -/
def Node.init (cacheSize : Int) : Node :=
  { cache := LRUCache.init cacheSize, metrics := defaultMetrics,
    totalRequests := 0, totalContentDeliveredMb := 0 }

/-- SatelliteNode.request_content: count the request, probe the cache
(a dataclass instance is always truthy, so the hit branch fires exactly
when the cache returns an item); on a miss consult the catalog: an
absent id ends in an ERROR entry with delivery_time 0, otherwise the
content is fetched, cached (possibly evicting) and delivered, and the
MISS entry records the whole round-trip time as its delivery_time.
none models an uncaught exception from the cache put. -/
def Node.requestContent (catalog : List ContentItem) (n : Node) (cid : String) :
    Option (ReqResult × Node) :=
  let n1 := { n with totalRequests := n.totalRequests + 1 }
  let rc := LRUCache.get n1.cache cid
  match rc.1 with
  | some item =>
    let dt := n1.metrics.calculateDeliveryTime item.sizeMb true
    some (⟨Status.HIT, dt⟩, { n1 with cache := rc.2 })
  | none =>
    match getContentById catalog cid with
    | none => some (⟨Status.ERROR, 0⟩, { n1 with cache := rc.2 })
    | some content =>
      let groundFetch := n1.metrics.calculateDeliveryTime content.sizeMb false
      let upload := n1.metrics.calculateDeliveryTime content.sizeMb false
      match LRUCache.put rc.2 cid content with
      | none => none
      | some c2 =>
        let delivery := n1.metrics.calculateDeliveryTime content.sizeMb true
        let total := 1 / 1000 + 15 / 1000 + 1 / 1000 + 1 / 1000 +
          n1.metrics.groundLatencyMs / 1000 + groundFetch + upload + 1 / 1000 + delivery
        some (⟨Status.MISS, total⟩,
          { n1 with cache := c2,
                    totalContentDeliveredMb := n1.totalContentDeliveredMb + content.sizeMb })

/-- Run a SatelliteNode through a sequence of requested content ids,
collecting the statuses. -/
def Node.run (catalog : List ContentItem) (n : Node) :
    List String → Option (List Status × Node)
  | [] => some ([], n)
  | cid :: t =>
    (Node.requestContent catalog n cid).bind fun rn =>
      (Node.run catalog rn.2 t).map fun sn => (rn.1.status :: sn.1, sn.2)

end Ntn

/-! ## satellite_constellation.py -/

namespace Constellation

open AdvCache

/-- Model of SatellitePosition.  Distances are compared and sorted by
the square of the Euclidean distance of the source (math.sqrt of the
sum of squared absolute differences): sqrt is strictly monotone on
nonnegatives, so every comparison against a nonnegative threshold and
every sort order is preserved exactly; recorded distances are the
squared values. -/
structure Position where
  latitude : ℚ
  longitude : ℚ
  altitude : ℚ
  velocity : ℚ := 15 / 2
deriving DecidableEq

/-- SatellitePosition.distance_to, squared (see Position). -/
def Position.distSqTo (p q : Position) : ℚ :=
  |p.latitude - q.latitude| ^ 2 + |p.longitude - q.longitude| ^ 2 +
    |p.altitude - q.altitude| ^ 2

/-- The cache_policy object of a ConstellationSatellite: one of the
four cache implementations of advanced_caching.py, as selected by
_create_constellation_cache. -/
inductive Policy where
  | lru (s : BState)
  | lfu (s : LfuState)
  | fifo (s : BState)
  | adaptive (s : AdState)
deriving DecidableEq

/-- cache_policy.contains, dispatched over the four classes. -/
def Policy.containsB : Policy → String → Bool
  | .lru s, cid => LRUCache.containsB s cid
  | .lfu s, cid => LFUCache.containsB s cid
  | .fifo s, cid => FIFOCache.containsB s cid
  | .adaptive s, cid => AdaptiveCache.containsB s cid

/-- cache_policy.get, dispatched over the four classes. -/
def Policy.getP : Policy → String → Option PyVal × Policy
  | .lru s, cid =>
    let rc := LRUCache.get s cid
    (rc.1, .lru rc.2)
  | .lfu s, cid =>
    let rc := LFUCache.get s cid
    (rc.1, .lfu rc.2)
  | .fifo s, cid =>
    let rc := FIFOCache.get s cid
    (rc.1, .fifo rc.2)
  | .adaptive s, cid =>
    let rc := AdaptiveCache.get s cid
    (rc.1, .adaptive rc.2)

/-- cache_policy.put, dispatched over the four classes. -/
def Policy.putP : Policy → String → PyVal → Option Policy
  | .lru s, cid, v => (LRUCache.put s cid v).map .lru
  | .lfu s, cid, v => (LFUCache.put s cid v).map .lfu
  | .fifo s, cid, v => (FIFOCache.put s cid v).map .fifo
  | .adaptive s, cid, v => (AdaptiveCache.put s cid v).map .adaptive

/-- The hit counter a get updates: for AdaptiveCache, the hit counter
of the current strategy's constituent cache. -/
def Policy.hitsP : Policy → Nat
  | .lru s => s.hits
  | .lfu s => s.hits
  | .fifo s => s.hits
  | .adaptive s =>
    match s.currentStrategy with
    | .lru => s.lruCache.hits
    | .lfu => s.lfuCache.hits
    | .fifo => s.fifoCache.hits

/-- A ConstellationSatellite: id, position, cache_policy and the
inter-satellite counters touched by request_content_from_neighbor. -/
structure CSat where
  satelliteId : String
  position : Position
  cachePolicy : Policy
  interSatelliteRequests : Nat
  interSatelliteHits : Nat
deriving DecidableEq

/-- Stable insertion of a keyed element into a distance-sorted list:
the element goes before the first strictly greater key, after equal
keys come from the left fold below, matching Python's stable
list.sort. -/
def insertSorted {α : Type} (x : ℚ × α) : List (ℚ × α) → List (ℚ × α)
  | [] => [x]
  | y :: ys => if x.1 ≤ y.1 then x :: y :: ys else y :: insertSorted x ys

/-- Stable sort by the first component (the distance), modelling
distances.sort(key=lambda x: x[0]). -/
def sortByFst {α : Type} : List (ℚ × α) → List (ℚ × α)
  | [] => []
  | x :: xs => insertSorted x (sortByFst xs)

/-- SatelliteConstellation.get_nearest_satellites: skip the reference
satellite, keep those within max_distance, sort ascending by distance,
return the three nearest. -/
def getNearestSatellites (sats : List CSat) (ref : CSat) (maxDistance : ℚ) :
    List CSat :=
  let distances := sats.filterMap fun t =>
    if t.satelliteId = ref.satelliteId then none
    else
      let d := ref.position.distSqTo t.position
      if d ≤ maxDistance * maxDistance then some (d, t) else none
  ((sortByFst distances).take 3).map Prod.snd

/-- The probe loop of request_content_from_neighbor: the first listed
neighbor (skipping any entry carrying the requester's own id) whose
cache contains the id. -/
def findDonor : List CSat → String → String → Option CSat
  | [], _, _ => none
  | n :: t, selfId, cid =>
    if n.satelliteId = selfId then findDonor t selfId cid
    else if n.cachePolicy.containsB cid then some n
    else findDonor t selfId cid

/-- The dictionary request_content_from_neighbor returns on success:
status 'Neighbor Hit', the donor's id and the (squared, see Position)
distance to it. -/
structure NbrHit where
  sourceSatellite : String
  distanceSq : ℚ
deriving DecidableEq

/-- Replace the satellite carrying the given id (Python mutates the
shared object in place; the model rewrites the list entry). -/
def updateSat (sats : List CSat) (sid : String) (t2 : CSat) : List CSat :=
  sats.map fun t => if t.satelliteId = sid then t2 else t

/-- ConstellationSatellite.request_content_from_neighbor: probe the at
most three nearest in-threshold neighbors in ascending distance order;
on the first whose cache contains the id, bump the requester's
inter-satellite counters, pull the content through the donor's own get
(falling back to the caller-supplied content if the pull were None),
put it into the requester's cache, and return the Neighbor Hit record;
otherwise bump only inter_satellite_requests and return None.  The
outer none models an uncaught exception from the requester's put; the
result triple is (returned value, updated constellation, updated
requester). -/
def requestContentFromNeighbor (sats : List CSat) (x : CSat) (cid : String)
    (content : PyVal) : Option (Option NbrHit × List CSat × CSat) :=
  let neighbors := getNearestSatellites sats x 1000
  match findDonor neighbors x.satelliteId cid with
  | some donor =>
    let x1 := { x with interSatelliteRequests := x.interSatelliteRequests + 1,
                       interSatelliteHits := x.interSatelliteHits + 1 }
    let gd := donor.cachePolicy.getP cid
    let pulled := gd.1.getD content
    match x1.cachePolicy.putP cid pulled with
    | none => none
    | some xpol =>
      let donor2 := { donor with cachePolicy := gd.2 }
      let x2 := { x1 with cachePolicy := xpol }
      let sats2 := updateSat (updateSat sats donor.satelliteId donor2) x.satelliteId x2
      some (some ⟨donor.satelliteId, x.position.distSqTo donor.position⟩, sats2, x2)
  | none =>
    let x1 := { x with interSatelliteRequests := x.interSatelliteRequests + 1 }
    some (none, updateSat sats x.satelliteId x1, x1)

end Constellation

/-! ## Claim C1: delivery-time formula, monotonicity, source comparison -/

/-- Claim C1 (amended).  With the default network metrics,
delivery_time(size, source) equals size * 8 / bandwidth(source) +
latency(source); it is monotonically non-decreasing in size for a fixed
source; and delivery_time(size, local) < delivery_time(size, origin)
holds exactly for sizes below 15/8 MB (beyond that the local path's
lower bandwidth outweighs its lower latency), so the strict inequality
is stated for 0 < size < 15/8. -/
theorem spec_C1 :
    (∀ size : ℚ,
      Ntn.defaultMetrics.calculateDeliveryTime size true = size * 8 / 100 + 15 / 1000 ∧
      Ntn.defaultMetrics.calculateDeliveryTime size false = size * 8 / 1000 + 150 / 1000) ∧
    (∀ (s1 s2 : ℚ) (src : Bool), s1 ≤ s2 →
      Ntn.defaultMetrics.calculateDeliveryTime s1 src ≤
        Ntn.defaultMetrics.calculateDeliveryTime s2 src) ∧
    (∀ size : ℚ, 0 < size → size < 15 / 8 →
      Ntn.defaultMetrics.calculateDeliveryTime size true <
        Ntn.defaultMetrics.calculateDeliveryTime size false) := by
  refine ⟨fun size => ⟨?_, ?_⟩, fun s1 s2 src h => ?_, fun size h0 h => ?_⟩
  · simp only [Ntn.NetworkMetrics.calculateDeliveryTime, Ntn.defaultMetrics]
    norm_num
  · simp only [Ntn.NetworkMetrics.calculateDeliveryTime, Ntn.defaultMetrics]
    norm_num
  · cases src <;>
      simp only [Ntn.NetworkMetrics.calculateDeliveryTime, Ntn.defaultMetrics] <;>
      norm_num <;> linarith
  · simp only [Ntn.NetworkMetrics.calculateDeliveryTime, Ntn.defaultMetrics]
    norm_num
    linarith

/-- Claim C1, counterexample to the original claim: at size 2 MB
(> 15/8) the local delivery time 0.175 s is not below the origin
delivery time 0.166 s, although 2 > 0. -/
theorem spec_C1_cex :
    (0 : ℚ) < 2 ∧
    ¬ Ntn.defaultMetrics.calculateDeliveryTime 2 true <
        Ntn.defaultMetrics.calculateDeliveryTime 2 false := by
  constructor
  · norm_num
  · simp only [Ntn.NetworkMetrics.calculateDeliveryTime, Ntn.defaultMetrics]
    norm_num

/-- Witness for spec_C1 at concrete inputs. -/
theorem spec_C1_witness :
    Ntn.defaultMetrics.calculateDeliveryTime 1 true ≤
        Ntn.defaultMetrics.calculateDeliveryTime 2 true ∧
    Ntn.defaultMetrics.calculateDeliveryTime 1 true <
        Ntn.defaultMetrics.calculateDeliveryTime 1 false :=
  ⟨spec_C1.2.1 1 2 true (by norm_num), spec_C1.2.2 1 (by norm_num) (by norm_num)⟩

/-! ## Claim C4: end-to-end LRU scenario a, b, c, a, d -/

/-- The capacity-3 scenario catalog: a 10 MB, b 5 MB, c 8 MB, d 2 MB. -/
def catalogABCD : List Ntn.ContentItem :=
  [⟨"a", 10⟩, ⟨"b", 5⟩, ⟨"c", 8⟩, ⟨"d", 2⟩]

/-- Claim C4.  On a capacity-3 node over the a/b/c/d catalog, the
request sequence a, b, c, a, d yields statuses MISS, MISS, MISS, HIT,
MISS, and the final cache holds exactly c, a, d in that recency order
(b was evicted when d arrived, the fourth request having refreshed a);
membership in the final key list is exactly membership in {a, c, d}. -/
theorem spec_C4 :
    (Ntn.Node.run catalogABCD (Ntn.Node.init 3) ["a", "b", "c", "a", "d"]).map
        (fun r => (r.1, keysOf r.2.cache.entries)) =
      some ([Ntn.Status.MISS, Ntn.Status.MISS, Ntn.Status.MISS,
             Ntn.Status.HIT, Ntn.Status.MISS], ["c", "a", "d"]) ∧
    (∀ k : String,
      k ∈ (["c", "a", "d"] : List String) ↔ k ∈ (["a", "c", "d"] : List String)) := by
  constructor
  · decide
  · intro k
    simp only [List.mem_cons, List.not_mem_nil, or_false]
    tauto

/-! ## Claim C10: falsy content diverges the adaptive hit accounting -/

/-- Claim C10.  Storing the falsy value 0 in an AdaptiveCache and
getting it back: the get returns 0, the constituent LRU cache records a
hit (hits 1, misses 0), yet the windowed strategy_performance entry for
the current strategy records the call as a miss (hits 0, misses 1),
because the source tests the returned value for truthiness rather than
for None. -/
theorem spec_C10 :
    ((AdvCache.AdaptiveCache.put (AdvCache.AdaptiveCache.init 2) "a" (PyVal.int 0)).map
        fun s1 =>
          let r := AdvCache.AdaptiveCache.get s1 "a"
          (r.1, r.2.lruCache.hits, r.2.lruCache.misses, r.2.perf.lru)) =
      some (some (PyVal.int 0), 1, 0, (0, 1)) := by
  decide

/-! ## Claim C7: capacity validation -/

/-- Claim C7, counterexample to the original claim: constructing the
advanced LRUCache with capacity 0 succeeds (no validation), and the
first put of an absent id then fails mid-run: popitem on the empty
OrderedDict raises KeyError (modelled by none); likewise for the
LRUCache of ntn_network_simulation.py. -/
theorem spec_C7_cex :
    (AdvCache.LRUCache.init 0).entries = [] ∧
    AdvCache.LRUCache.put (AdvCache.LRUCache.init 0) "a" (PyVal.int 1) = none ∧
    Ntn.LRUCache.put (Ntn.LRUCache.init 0) "a" ⟨"a", 1⟩ = none := by
  refine ⟨rfl, ?_, ?_⟩ <;> decide

/-- Claim C7 (amended).  No cache class validates its capacity:
construction with capacity ≤ 0 succeeds and yields an ordinary empty
cache, and the invalid capacity is first discovered mid-run, when the
first put of an absent id tries to evict from an empty cache (KeyError
for the OrderedDict caches, a non-terminating scan for LFU; in the
model, put returns none).  This holds for all four caches of
advanced_caching.py and for the LRUCache of ntn_network_simulation.py. -/
theorem spec_C7 (cap : Int) (hcap : cap ≤ 0) (cid : String) (v : PyVal)
    (it : Ntn.ContentItem) :
    (AdvCache.LRUCache.init cap).entries = [] ∧
    (AdvCache.LFUCache.init cap).cache = [] ∧
    (AdvCache.FIFOCache.init cap).entries = [] ∧
    AdvCache.LRUCache.put (AdvCache.LRUCache.init cap) cid v = none ∧
    AdvCache.LFUCache.put (AdvCache.LFUCache.init cap) cid v = none ∧
    AdvCache.FIFOCache.put (AdvCache.FIFOCache.init cap) cid v = none ∧
    AdvCache.AdaptiveCache.put (AdvCache.AdaptiveCache.init cap) cid v = none ∧
    Ntn.LRUCache.put (Ntn.LRUCache.init cap) cid it = none := by
  refine ⟨rfl, rfl, rfl, ?_, ?_, ?_, ?_, ?_⟩
  · simp [AdvCache.LRUCache.put, AdvCache.LRUCache.init, lookupKV, hcap]
  · simp [AdvCache.LFUCache.put, AdvCache.LFUCache.init, lookupKV, hcap,
      AdvCache.LFUCache.findEvict, AdvCache.LFUCache.minList]
  · simp [AdvCache.FIFOCache.put, AdvCache.FIFOCache.init, lookupKV, hcap]
  · simp [AdvCache.AdaptiveCache.put, AdvCache.AdaptiveCache.init,
      AdvCache.LRUCache.put, AdvCache.LRUCache.init, lookupKV, hcap]
  · simp [Ntn.LRUCache.put, Ntn.LRUCache.init, lookupKV, hcap]

/-- Witness for spec_C7 at capacity 0. -/
theorem spec_C7_witness :
    (0 : Int) ≤ 0 ∧
    AdvCache.LFUCache.put (AdvCache.LFUCache.init 0) "x" (PyVal.int 3) = none :=
  ⟨by decide, (spec_C7 0 (by decide) "x" (PyVal.int 3) ⟨"x", 1⟩).2.2.2.2.1⟩

/-! ## Claim C5: LFU access counting -/

/-- LFUCache.get on a present id: returns the stored content, rewrites
the item in place with access count + 1, counts a hit, and leaves
misses, evictions and capacity alone. -/
theorem lfu_get_hit {s : AdvCache.LfuState} {cid : String} {it : AdvCache.Item}
    (h : lookupKV s.cache cid = some it) :
    (AdvCache.LFUCache.get s cid).1 = some it.content ∧
    (AdvCache.LFUCache.get s cid).2.cache =
      updateKV s.cache cid ⟨it.content, it.accessCount + 1⟩ ∧
    (AdvCache.LFUCache.get s cid).2.hits = s.hits + 1 ∧
    (AdvCache.LFUCache.get s cid).2.misses = s.misses ∧
    (AdvCache.LFUCache.get s cid).2.evictions = s.evictions ∧
    (AdvCache.LFUCache.get s cid).2.capacity = s.capacity := by
  simp only [AdvCache.LFUCache.get, h]
  simp

/-- Absence of a key survives eraseKV. -/
theorem lookupKV_eraseKV_of_none {κ : Type} [DecidableEq κ] {α : Type}
    {l : List (κ × α)} {k k' : κ} (h : lookupKV l k' = none) :
    lookupKV (eraseKV l k) k' = none := by
  rw [lookupKV_eq_none] at h ⊢
  exact fun hm => h (mem_keysOf_eraseKV hm)

/-- Lookup of a freshly appended key when it was absent before. -/
theorem lookupKV_append_new {κ : Type} [DecidableEq κ] {α : Type}
    {l : List (κ × α)} {k : κ} {v : α} (h : lookupKV l k = none) :
    lookupKV (l ++ [(k, v)]) k = some v := by
  rw [lookupKV_append_right h]
  simp [lookupKV]

/-- Claim C5 (amended).  In the LFU cache: a newly inserted entry has
access count 1; a get hit returns the stored content and raises the
access count by exactly 1, counting one hit and no miss; but a put for
an id that is already present is routed through get in the source, so
it also raises the access count by 1 and the hit counter by 1 (and then
overwrites the stored content), rather than leaving them unchanged. -/
theorem spec_C5 (s : AdvCache.LfuState) (cid : String) (v : PyVal) :
    (lookupKV s.cache cid = none →
      ∀ s2, AdvCache.LFUCache.put s cid v = some s2 →
        lookupKV s2.cache cid = some ⟨v, 1⟩) ∧
    (∀ it, lookupKV s.cache cid = some it →
      (AdvCache.LFUCache.get s cid).1 = some it.content ∧
      lookupKV (AdvCache.LFUCache.get s cid).2.cache cid =
        some ⟨it.content, it.accessCount + 1⟩ ∧
      (AdvCache.LFUCache.get s cid).2.hits = s.hits + 1 ∧
      (AdvCache.LFUCache.get s cid).2.misses = s.misses) ∧
    (∀ it, lookupKV s.cache cid = some it →
      ∃ s2, AdvCache.LFUCache.put s cid v = some s2 ∧
        lookupKV s2.cache cid = some ⟨v, it.accessCount + 1⟩ ∧
        s2.hits = s.hits + 1 ∧ s2.misses = s.misses ∧ s2.evictions = s.evictions) := by
  refine ⟨?_, ?_, ?_⟩
  · intro habs s2 hput
    simp only [AdvCache.LFUCache.put, habs] at hput
    by_cases hfull : (s.cache.length : Int) ≥ s.capacity
    · rw [if_pos hfull] at hput
      rcases hfe : AdvCache.LFUCache.findEvict s.freqMap s.minFreq with _ | f
      · simp only [hfe] at hput
        exact Option.noConfusion hput
      · simp only [hfe] at hput
        rcases hb : lookupKV s.freqMap f with _ | b
        · simp only [hb] at hput
          exact Option.noConfusion hput
        · rcases b with _ | ⟨victim, brest⟩
          · simp only [hb] at hput
            exact Option.noConfusion hput
          · simp only [hb, Option.some.injEq] at hput
            subst hput
            show lookupKV (eraseKV s.cache victim ++ [(cid, ⟨v, 1⟩)]) cid = some ⟨v, 1⟩
            exact lookupKV_append_new (lookupKV_eraseKV_of_none habs)
    · rw [if_neg hfull] at hput
      simp only [Option.some.injEq] at hput
      subst hput
      show lookupKV (s.cache ++ [(cid, ⟨v, 1⟩)]) cid = some ⟨v, 1⟩
      exact lookupKV_append_new habs
  · intro it hit
    have hg := lfu_get_hit hit
    have hmem : cid ∈ keysOf s.cache := by
      rw [← lookupKV_isSome_iff]
      simp [hit]
    refine ⟨hg.1, ?_, hg.2.2.1, hg.2.2.2.1⟩
    rw [hg.2.1]
    exact lookupKV_updateKV_self hmem
  · intro it hit
    have hg := lfu_get_hit hit
    have hmem : cid ∈ keysOf s.cache := by
      rw [← lookupKV_isSome_iff]
      simp [hit]
    have hl2 : lookupKV (AdvCache.LFUCache.get s cid).2.cache cid =
        some ⟨it.content, it.accessCount + 1⟩ := by
      rw [hg.2.1]
      exact lookupKV_updateKV_self hmem
    have hmem2 : cid ∈ keysOf (AdvCache.LFUCache.get s cid).2.cache := by
      rw [← lookupKV_isSome_iff]
      simp [hl2]
    refine ⟨{ (AdvCache.LFUCache.get s cid).2 with
        cache := updateKV (AdvCache.LFUCache.get s cid).2.cache cid
          ⟨v, it.accessCount + 1⟩ }, ?_, ?_, ?_, ?_, ?_⟩
    · simp only [AdvCache.LFUCache.put, hit, hl2]
    · exact lookupKV_updateKV_self hmem2
    · exact hg.2.2.1
    · exact hg.2.2.2.1
    · exact hg.2.2.2.2.1

/-- Claim C5, counterexample to the original claim: insert a into an
LFU cache of capacity 2 and then put a again; the access count ends at
2 (not 1) and the hit counter at 1 (not 0). -/
theorem spec_C5_cex :
    ((AdvCache.LFUCache.put (AdvCache.LFUCache.init 2) "a" (PyVal.int 1)).bind fun s1 =>
        (AdvCache.LFUCache.put s1 "a" (PyVal.int 2)).map fun s2 =>
          ((lookupKV s2.cache "a").map AdvCache.Item.accessCount, s2.hits)) =
      some (some 2, 1) := by
  decide

/-- Witness for spec_C5 at a concrete state with a present. -/
theorem spec_C5_witness :
    (AdvCache.LFUCache.get
        (AdvCache.LFUCache.insertNew (AdvCache.LFUCache.init 2) "a" (PyVal.int 1)) "a").1 =
      some (PyVal.int 1) ∧
    lookupKV ((AdvCache.LFUCache.put
        (AdvCache.LFUCache.insertNew (AdvCache.LFUCache.init 2) "a" (PyVal.int 1))
        "b" (PyVal.int 5)).getD (AdvCache.LFUCache.init 2)).cache "b" =
      some ⟨PyVal.int 5, 1⟩ :=
  ⟨((spec_C5 (AdvCache.LFUCache.insertNew (AdvCache.LFUCache.init 2) "a" (PyVal.int 1))
      "a" (PyVal.int 9)).2.1 ⟨PyVal.int 1, 1⟩ (by decide)).1,
   (spec_C5 (AdvCache.LFUCache.insertNew (AdvCache.LFUCache.init 2) "a" (PyVal.int 1))
      "b" (PyVal.int 5)).1 (by decide) _ (by decide)⟩

/-! ## Claim C6: requests for ids absent from the catalog -/

/-- One request keeps every cached key backed by the catalog: a request
can only insert the requested id, and it does so only after
get_content_by_id succeeded for it. -/
theorem ntn_request_keys (catalog : List Ntn.ContentItem) (n : Ntn.Node) (cid : String)
    (r : Ntn.ReqResult) (n2 : Ntn.Node)
    (h : Ntn.Node.requestContent catalog n cid = some (r, n2))
    (hk : ∀ k ∈ keysOf n.cache.entries, (Ntn.getContentById catalog k).isSome) :
    ∀ k ∈ keysOf n2.cache.entries, (Ntn.getContentById catalog k).isSome := by
  rcases hlook : lookupKV n.cache.entries cid with _ | it
  · rcases hcat : Ntn.getContentById catalog cid with _ | content
    · simp only [Ntn.Node.requestContent, Ntn.LRUCache.get, hlook, hcat,
        Option.some.injEq, Prod.mk.injEq] at h
      intro k hkm
      rw [← h.2] at hkm
      exact hk k hkm
    · simp only [Ntn.Node.requestContent, Ntn.LRUCache.get, hlook, hcat,
        Ntn.LRUCache.put] at h
      by_cases hfull : ((n.cache.entries.length : Int) ≥ n.cache.capacity)
      · rw [if_pos hfull] at h
        rcases hent : n.cache.entries with _ | ⟨e, rest⟩
        · simp only [hent] at h
          exact Option.noConfusion h
        · simp only [hent, Option.some.injEq, Prod.mk.injEq] at h
          intro k hkm
          rw [← h.2] at hkm
          simp only [keysOf, List.map_append, List.map_cons, List.map_nil,
            List.mem_append, List.mem_cons, List.not_mem_nil, or_false] at hkm
          rcases hkm with hkm | hkm
          · exact hk k (by simp [hent, keysOf, hkm])
          · subst hkm
            simp [hcat]
      · rw [if_neg hfull] at h
        simp only [Option.some.injEq, Prod.mk.injEq] at h
        intro k hkm
        rw [← h.2] at hkm
        simp only [keysOf, List.map_append, List.map_cons, List.map_nil,
          List.mem_append, List.mem_cons, List.not_mem_nil, or_false] at hkm
        rcases hkm with hkm | hkm
        · exact hk k (by simpa [keysOf] using hkm)
        · subst hkm
          simp [hcat]
  · simp only [Ntn.Node.requestContent, Ntn.LRUCache.get, hlook,
      Option.some.injEq, Prod.mk.injEq] at h
    intro k hkm
    rw [← h.2] at hkm
    simp only [keysOf, List.map_append, List.map_cons, List.map_nil,
      List.mem_append, List.mem_cons, List.not_mem_nil, or_false] at hkm
    rcases hkm with hkm | hkm
    · exact hk k (mem_keysOf_eraseKV (by simpa [keysOf] using hkm))
    · rw [hkm]
      have hmem : cid ∈ keysOf n.cache.entries := by
        rw [← lookupKV_isSome_iff, hlook]
        rfl
      exact hk cid hmem

/-- Along any run, every cached key is backed by the catalog. -/
theorem ntn_run_keys (catalog : List Ntn.ContentItem) :
    ∀ (reqs : List String) (n : Ntn.Node) (out : List Ntn.Status × Ntn.Node),
      (∀ k ∈ keysOf n.cache.entries, (Ntn.getContentById catalog k).isSome) →
      Ntn.Node.run catalog n reqs = some out →
      ∀ k ∈ keysOf out.2.cache.entries, (Ntn.getContentById catalog k).isSome := by
  intro reqs
  induction reqs with
  | nil =>
    intro n out hk h
    simp only [Ntn.Node.run, Option.some.injEq] at h
    rw [← h]
    exact hk
  | cons cid t ih =>
    intro n out hk h
    simp only [Ntn.Node.run] at h
    rcases hr : Ntn.Node.requestContent catalog n cid with _ | rn
    · rw [hr] at h
      exact Option.noConfusion h
    · rw [hr] at h
      have h2 : (Ntn.Node.run catalog rn.2 t).map
          (fun sn => (rn.1.status :: sn.1, sn.2)) = some out := h
      rcases hrun : Ntn.Node.run catalog rn.2 t with _ | out2
      · rw [hrun] at h2
        exact Option.noConfusion h2
      · rw [hrun] at h2
        have h3 : some ((rn.1.status :: out2.1, out2.2) :
            List Ntn.Status × Ntn.Node) = some out := h2
        have hk2 := ntn_request_keys catalog n cid rn.1 rn.2 (by exact hr) hk
        have hfin := ih rn.2 out2 hk2 hrun
        injection h3 with h4
        rw [← h4]
        exact hfin

/-- Claim C6 (amended).  After any run from a fresh node, a request
whose content id is absent from the catalog returns status ERROR with
delivery time 0 and does not raise; the cache entries, hit counter and
eviction counter are unchanged, but the cache miss counter increments
by exactly 1, because the pipeline probes the cache (counting a miss)
before consulting the catalog; the node's total request counter also
increments and the delivered-megabytes total is unchanged. -/
theorem spec_C6 (catalog : List Ntn.ContentItem) (cap : Int) (reqs : List String)
    (out : List Ntn.Status × Ntn.Node)
    (hrun : Ntn.Node.run catalog (Ntn.Node.init cap) reqs = some out)
    (cid : String) (hcat : Ntn.getContentById catalog cid = none) :
    ∃ n2, Ntn.Node.requestContent catalog out.2 cid =
        some (⟨Ntn.Status.ERROR, 0⟩, n2) ∧
      n2.cache.entries = out.2.cache.entries ∧
      n2.cache.hits = out.2.cache.hits ∧
      n2.cache.evictions = out.2.cache.evictions ∧
      n2.cache.misses = out.2.cache.misses + 1 ∧
      n2.cache.capacity = out.2.cache.capacity ∧
      n2.totalRequests = out.2.totalRequests + 1 ∧
      n2.totalContentDeliveredMb = out.2.totalContentDeliveredMb := by
  have hkeys := ntn_run_keys catalog reqs (Ntn.Node.init cap) out
    (by simp [Ntn.Node.init, Ntn.LRUCache.init, keysOf]) hrun
  have hlook : lookupKV out.2.cache.entries cid = none := by
    rw [lookupKV_eq_none]
    intro hm
    have hs := hkeys cid hm
    rw [hcat] at hs
    simp at hs
  refine ⟨{ out.2 with
      cache := { out.2.cache with misses := out.2.cache.misses + 1 },
      totalRequests := out.2.totalRequests + 1 }, ?_, rfl, rfl, rfl, rfl, rfl, rfl, rfl⟩
  simp only [Ntn.Node.requestContent, Ntn.LRUCache.get, hlook, hcat]

/-- Claim C6, counterexample to the original claim: on a fresh node
with an empty catalog, requesting an unknown id returns ERROR with
delivery time 0, but the cache miss counter moves from 0 to 1, so the
cache statistics are not untouched. -/
theorem spec_C6_cex :
    (Ntn.Node.requestContent ([] : List Ntn.ContentItem) (Ntn.Node.init 1) "a").map
        (fun r => (r.1, r.2.cache.misses)) = some (⟨Ntn.Status.ERROR, 0⟩, 1) ∧
    (Ntn.Node.init 1).cache.misses = 0 := by
  constructor
  · decide
  · rfl

/-- Witness for spec_C6: the empty run over the empty catalog. -/
theorem spec_C6_witness :
    ∃ n2, Ntn.Node.requestContent ([] : List Ntn.ContentItem)
        (([], Ntn.Node.init 1) : List Ntn.Status × Ntn.Node).2 "a" =
        some (⟨Ntn.Status.ERROR, 0⟩, n2) ∧
      n2.cache.entries = (Ntn.Node.init 1).cache.entries ∧
      n2.cache.hits = (Ntn.Node.init 1).cache.hits ∧
      n2.cache.evictions = (Ntn.Node.init 1).cache.evictions ∧
      n2.cache.misses = (Ntn.Node.init 1).cache.misses + 1 ∧
      n2.cache.capacity = (Ntn.Node.init 1).cache.capacity ∧
      n2.totalRequests = (Ntn.Node.init 1).totalRequests + 1 ∧
      n2.totalContentDeliveredMb = (Ntn.Node.init 1).totalContentDeliveredMb :=
  spec_C6 [] 1 [] ([], Ntn.Node.init 1) rfl "a" rfl

/-! ## Claim C9: contains has no bookkeeping side effect -/

/-- Any number of repeated contains calls leaves an LRU cache state
untouched. -/
theorem lru_contains_run (cid : String) :
    ∀ (n : Nat) (s : AdvCache.BState),
      AdvCache.LRUCache.run s (List.replicate n (AdvCache.Op.containsQ cid)) = some s := by
  intro n
  induction n with
  | zero => intro s; rfl
  | succ m ih =>
    intro s
    simpa [List.replicate, AdvCache.LRUCache.run, AdvCache.LRUCache.step] using ih s

/-- Any number of repeated contains calls leaves a FIFO cache state
untouched. -/
theorem fifo_contains_run (cid : String) :
    ∀ (n : Nat) (s : AdvCache.BState),
      AdvCache.FIFOCache.run s (List.replicate n (AdvCache.Op.containsQ cid)) = some s := by
  intro n
  induction n with
  | zero => intro s; rfl
  | succ m ih =>
    intro s
    simpa [List.replicate, AdvCache.FIFOCache.run, AdvCache.FIFOCache.step] using ih s

/-- Any number of repeated contains calls leaves an LFU cache state
untouched. -/
theorem lfu_contains_run (cid : String) :
    ∀ (n : Nat) (s : AdvCache.LfuState),
      AdvCache.LFUCache.run s (List.replicate n (AdvCache.Op.containsQ cid)) = some s := by
  intro n
  induction n with
  | zero => intro s; rfl
  | succ m ih =>
    intro s
    simpa [List.replicate, AdvCache.LFUCache.run, AdvCache.LFUCache.step] using ih s

/-- Any number of repeated contains calls leaves an AdaptiveCache state
untouched (in particular its request counter). -/
theorem adaptive_contains_run (cid : String) :
    ∀ (n : Nat) (s : AdvCache.AdState),
      AdvCache.AdaptiveCache.run s (List.replicate n (AdvCache.Op.containsQ cid)) = some s := by
  intro n
  induction n with
  | zero => intro s; rfl
  | succ m ih =>
    intro s
    simpa [List.replicate, AdvCache.AdaptiveCache.run, AdvCache.AdaptiveCache.step] using ih s

/-- Claim C9.  For each of the four caches, a contains call is a pure
membership test: a single step under contains returns the state
unchanged, and so does any number of repeated contains calls — hit,
miss and eviction counters, entry order, access counts and the
adaptive request counter are all as before. -/
theorem spec_C9 (cid : String) (n : Nat) :
    (∀ s : AdvCache.BState,
      AdvCache.LRUCache.step s (AdvCache.Op.containsQ cid) = some s ∧
      AdvCache.FIFOCache.step s (AdvCache.Op.containsQ cid) = some s ∧
      AdvCache.LRUCache.run s (List.replicate n (AdvCache.Op.containsQ cid)) = some s ∧
      AdvCache.FIFOCache.run s (List.replicate n (AdvCache.Op.containsQ cid)) = some s) ∧
    (∀ s : AdvCache.LfuState,
      AdvCache.LFUCache.step s (AdvCache.Op.containsQ cid) = some s ∧
      AdvCache.LFUCache.run s (List.replicate n (AdvCache.Op.containsQ cid)) = some s) ∧
    (∀ s : AdvCache.AdState,
      AdvCache.AdaptiveCache.step s (AdvCache.Op.containsQ cid) = some s ∧
      AdvCache.AdaptiveCache.run s (List.replicate n (AdvCache.Op.containsQ cid)) = some s) :=
  ⟨fun s => ⟨rfl, rfl, lru_contains_run cid n s, fifo_contains_run cid n s⟩,
   fun s => ⟨rfl, lfu_contains_run cid n s⟩,
   fun s => ⟨rfl, adaptive_contains_run cid n s⟩⟩

/-! ## Claim C3: the adaptive cache never switches strategy -/

/-- Both non-current strategies have zero windowed counters. -/
def PerfZero (s : AdvCache.AdState) : Prop :=
  (s.currentStrategy ≠ AdvCache.Strat.lru → s.perf.lru = (0, 0)) ∧
  (s.currentStrategy ≠ AdvCache.Strat.lfu → s.perf.lfu = (0, 0)) ∧
  (s.currentStrategy ≠ AdvCache.Strat.fifo → s.perf.fifo = (0, 0))

/-- A strategy with zero windowed counters is skipped by the
evaluation loop body. -/
theorem evalStep_zero {perf : AdvCache.Perf} {acc : AdvCache.Strat × ℚ}
    {st : AdvCache.Strat} (h : AdvCache.AdaptiveCache.getPerf perf st = (0, 0)) :
    AdvCache.AdaptiveCache.evalStep perf acc st = acc := by
  simp [AdvCache.AdaptiveCache.evalStep, h]

/-- The loop body either keeps the accumulator's strategy or moves to
the scanned strategy. -/
theorem evalStep_fst {perf : AdvCache.Perf} {acc : AdvCache.Strat × ℚ}
    {st : AdvCache.Strat} :
    (AdvCache.AdaptiveCache.evalStep perf acc st).1 = acc.1 ∨
    (AdvCache.AdaptiveCache.evalStep perf acc st).1 = st := by
  simp only [AdvCache.AdaptiveCache.evalStep]
  split_ifs <;> simp

/-- When only the current strategy has nonzero windowed counters, the
periodic evaluation never leaves the current strategy: the other
strategies are skipped (total 0), and the best candidate therefore
stays the current one, so no switch record is written and nothing is
reset. -/
theorem evaluateAndSwitch_id (s : AdvCache.AdState) (h : PerfZero s) :
    AdvCache.AdaptiveCache.evaluateAndSwitch s = s := by
  rcases h with ⟨h1, h2, h3⟩
  have hfst : ∀ r : ℚ,
      (AdvCache.AdaptiveCache.evalStep s.perf (s.currentStrategy, r) s.currentStrategy).1 =
        s.currentStrategy := by
    intro r
    rcases (@evalStep_fst s.perf (s.currentStrategy, r) s.currentStrategy) with h | h <;> exact h
  cases hc : s.currentStrategy
  case lru =>
    have e2 : AdvCache.AdaptiveCache.getPerf s.perf AdvCache.Strat.lfu = (0, 0) := by
      simpa [AdvCache.AdaptiveCache.getPerf] using h2 (by rw [hc]; decide)
    have e3 : AdvCache.AdaptiveCache.getPerf s.perf AdvCache.Strat.fifo = (0, 0) := by
      simpa [AdvCache.AdaptiveCache.getPerf] using h3 (by rw [hc]; decide)
    simp only [AdvCache.AdaptiveCache.evaluateAndSwitch, List.foldl, hc,
      evalStep_zero e2, evalStep_zero e3]
    rw [if_neg]
    simp only [ne_eq, Decidable.not_not]
    have := hfst 0
    rw [hc] at this
    exact this
  case lfu =>
    have e2 : AdvCache.AdaptiveCache.getPerf s.perf AdvCache.Strat.lru = (0, 0) := by
      simpa [AdvCache.AdaptiveCache.getPerf] using h1 (by rw [hc]; decide)
    have e3 : AdvCache.AdaptiveCache.getPerf s.perf AdvCache.Strat.fifo = (0, 0) := by
      simpa [AdvCache.AdaptiveCache.getPerf] using h3 (by rw [hc]; decide)
    simp only [AdvCache.AdaptiveCache.evaluateAndSwitch, List.foldl, hc,
      evalStep_zero e2, evalStep_zero e3]
    rw [if_neg]
    simp only [ne_eq, Decidable.not_not]
    have := hfst 0
    rw [hc] at this
    exact this
  case fifo =>
    have e2 : AdvCache.AdaptiveCache.getPerf s.perf AdvCache.Strat.lru = (0, 0) := by
      simpa [AdvCache.AdaptiveCache.getPerf] using h1 (by rw [hc]; decide)
    have e3 : AdvCache.AdaptiveCache.getPerf s.perf AdvCache.Strat.lfu = (0, 0) := by
      simpa [AdvCache.AdaptiveCache.getPerf] using h2 (by rw [hc]; decide)
    simp only [AdvCache.AdaptiveCache.evaluateAndSwitch, List.foldl, hc,
      evalStep_zero e2, evalStep_zero e3]
    rw [if_neg]
    simp only [ne_eq, Decidable.not_not]
    have := hfst 0
    rw [hc] at this
    exact this

/-- The C3 run invariant: strategy still LRU, empty history, zero
windowed counters for LFU and FIFO. -/
def AdInv (s : AdvCache.AdState) : Prop :=
  s.currentStrategy = AdvCache.Strat.lru ∧ s.strategyHistory = [] ∧
  s.perf.lfu = (0, 0) ∧ s.perf.fifo = (0, 0)

/-- The evaluation branch at the end of AdaptiveCache.get preserves
the C3 invariant. -/
theorem ad_if_eval {X : AdvCache.AdState} (hx : AdInv X) (c : Prop) [Decidable c] :
    AdInv (if c then AdvCache.AdaptiveCache.evaluateAndSwitch X else X) := by
  have hz : PerfZero X :=
    ⟨fun hne => absurd hx.1 hne, fun _ => hx.2.2.1, fun _ => hx.2.2.2⟩
  by_cases h : c
  · rw [if_pos h, evaluateAndSwitch_id X hz]
    exact hx
  · rw [if_neg h]
    exact hx

/-- AdaptiveCache.get preserves the C3 invariant. -/
theorem ad_get_inv {s : AdvCache.AdState} (h : AdInv s) (cid : String) :
    AdInv (AdvCache.AdaptiveCache.get s cid).2 := by
  rcases h with ⟨hc, hh, h2, h3⟩
  simp only [AdvCache.AdaptiveCache.get, hc, AdvCache.AdaptiveCache.getPerf,
    AdvCache.AdaptiveCache.setPerf]
  refine ad_if_eval ?_ _
  exact ⟨rfl, hh, h2, h3⟩

/-- AdaptiveCache.put preserves the C3 invariant. -/
theorem ad_put_inv {s s2 : AdvCache.AdState} (h : AdInv s) {cid : String} {v : PyVal}
    (hp : AdvCache.AdaptiveCache.put s cid v = some s2) : AdInv s2 := by
  rcases h with ⟨hc, hh, h2, h3⟩
  rcases hq : AdvCache.LRUCache.put s.lruCache cid v with _ | c
  · have hnone : AdvCache.AdaptiveCache.put s cid v = none := by
      simp [AdvCache.AdaptiveCache.put, hc, hq]
    rw [hnone] at hp
    exact Option.noConfusion hp
  · have hsome : AdvCache.AdaptiveCache.put s cid v = some { s with lruCache := c } := by
      simp [AdvCache.AdaptiveCache.put, hc, hq]
    rw [hsome] at hp
    injection hp with hp3
    rw [← hp3]
    exact ⟨hc, hh, h2, h3⟩

/-- Running any operation sequence preserves the C3 invariant. -/
theorem ad_run_inv : ∀ (ops : List AdvCache.Op) {s s2 : AdvCache.AdState},
    AdInv s → AdvCache.AdaptiveCache.run s ops = some s2 → AdInv s2 := by
  intro ops
  induction ops with
  | nil =>
    intro s s2 h hr
    simp only [AdvCache.AdaptiveCache.run, Option.some.injEq] at hr
    rw [← hr]
    exact h
  | cons op t ih =>
    intro s s2 h hr
    simp only [AdvCache.AdaptiveCache.run] at hr
    rcases hst : AdvCache.AdaptiveCache.step s op with _ | s1
    · rw [hst] at hr
      exact Option.noConfusion hr
    · rw [hst] at hr
      simp only [Option.some_bind] at hr
      refine ih ?_ hr
      cases op with
      | get cid =>
        simp only [AdvCache.AdaptiveCache.step, Option.some.injEq] at hst
        rw [← hst]
        exact ad_get_inv h cid
      | put cid v =>
        simp only [AdvCache.AdaptiveCache.step] at hst
        exact ad_put_inv h hst
      | containsQ cid =>
        simp only [AdvCache.AdaptiveCache.step, Option.some.injEq] at hst
        rw [← hst]
        exact h

/-- Claim C3.  From a fresh AdaptiveCache, after any sequence of get,
put and contains calls that completes, the current strategy is still
LRU, the strategy history is empty, and the windowed counters of the
two non-current strategies (LFU and FIFO) are still zero: the periodic
evaluation can never pick a different strategy because only the current
strategy's windowed counters are ever advanced. -/
theorem spec_C3 (cap : Int) (ops : List AdvCache.Op) (s : AdvCache.AdState)
    (h : AdvCache.AdaptiveCache.run (AdvCache.AdaptiveCache.init cap) ops = some s) :
    s.currentStrategy = AdvCache.Strat.lru ∧ s.strategyHistory = [] ∧
    s.perf.lfu = (0, 0) ∧ s.perf.fifo = (0, 0) :=
  ad_run_inv ops ⟨rfl, rfl, rfl, rfl⟩ h

/-- Witness for spec_C3: a two-call run (put then get). -/
theorem spec_C3_witness :
    ((AdvCache.AdaptiveCache.run (AdvCache.AdaptiveCache.init 1)
        [AdvCache.Op.put "a" (PyVal.int 1), AdvCache.Op.get "a"]).getD
          (AdvCache.AdaptiveCache.init 1)).currentStrategy = AdvCache.Strat.lru ∧
    ((AdvCache.AdaptiveCache.run (AdvCache.AdaptiveCache.init 1)
        [AdvCache.Op.put "a" (PyVal.int 1), AdvCache.Op.get "a"]).getD
          (AdvCache.AdaptiveCache.init 1)).strategyHistory = [] :=
  ⟨(spec_C3 1 [AdvCache.Op.put "a" (PyVal.int 1), AdvCache.Op.get "a"] _ rfl).1,
   (spec_C3 1 [AdvCache.Op.put "a" (PyVal.int 1), AdvCache.Op.get "a"] _ rfl).2.1⟩

/-! ## Claim C2: capacity invariant and single-victim eviction -/

/-- Looking up the erased key itself fails when keys are distinct. -/
theorem lookupKV_eraseKV_self {κ : Type} [DecidableEq κ] {α : Type}
    {l : List (κ × α)} {k : κ} (hnd : (keysOf l).Nodup) :
    lookupKV (eraseKV l k) k = none :=
  lookupKV_eq_none.mpr (not_mem_keysOf_eraseKV_self hnd)

/-- Keys different from the erased one survive eraseKV. -/
theorem mem_keysOf_eraseKV_of_ne {κ : Type} [DecidableEq κ] {α : Type}
    {l : List (κ × α)} {k k' : κ} (h : k' ∈ keysOf l) (hne : k' ≠ k) :
    k' ∈ keysOf (eraseKV l k) := by
  induction l with
  | nil => simpa [keysOf] using h
  | cons p t ih =>
    by_cases hp : p.1 = k
    · simp only [eraseKV, hp, if_true]
      rcases (by simpa [keysOf] using h : k' = p.1 ∨ k' ∈ keysOf t) with h | h
      · exact absurd (h.trans hp) hne
      · exact h
    · simp only [eraseKV, hp, if_false, keysOf, List.map_cons, List.mem_cons]
      rcases (by simpa [keysOf] using h : k' = p.1 ∨ k' ∈ keysOf t) with h | h
      · exact Or.inl h
      · exact Or.inr (ih h)

/-- Lookup of a different key through a singleton append. -/
theorem lookupKV_append_single_ne {κ : Type} [DecidableEq κ] {α : Type}
    {l : List (κ × α)} {k k' : κ} {v : α} (hne : k ≠ k') :
    lookupKV (l ++ [(k, v)]) k' = lookupKV l k' := by
  rcases h : lookupKV l k' with _ | w
  · rw [lookupKV_append_right h]
    simp [lookupKV, hne]
  · exact lookupKV_append_left h

/-- Erasing a key and appending a fresh entry for it keeps keys
distinct. -/
theorem nodup_keys_erase_append {κ : Type} [DecidableEq κ] {α : Type}
    {l : List (κ × α)} {k : κ} {v : α} (hnd : (keysOf l).Nodup) :
    (keysOf (eraseKV l k ++ [(k, v)])).Nodup := by
  rw [keysOf_append]
  rw [List.nodup_append]
  refine ⟨nodup_keysOf_eraseKV hnd, by simp [keysOf], ?_⟩
  intro a ha
  simp only [keysOf, List.map_cons, List.map_nil, List.mem_cons, List.not_mem_nil, or_false]
  intro hak
  rw [hak] at ha
  exact not_mem_keysOf_eraseKV_self hnd ha

/-- Appending an entry with a fresh key keeps keys distinct. -/
theorem nodup_keys_append_new {κ : Type} [DecidableEq κ] {α : Type}
    {l : List (κ × α)} {k : κ} {v : α} (hnd : (keysOf l).Nodup)
    (habs : lookupKV l k = none) :
    (keysOf (l ++ [(k, v)])).Nodup := by
  rw [keysOf_append, List.nodup_append]
  refine ⟨hnd, by simp [keysOf], ?_⟩
  intro a ha
  simp only [keysOf, List.map_cons, List.map_nil, List.mem_cons, List.not_mem_nil, or_false]
  intro hak
  rw [hak] at ha
  exact (lookupKV_eq_none.mp habs) ha

/-- The C2 invariant for the two OrderedDict caches: fixed positive
capacity, distinct keys, and at most capacity entries. -/
def BInvC (cap : Int) (s : AdvCache.BState) : Prop :=
  s.capacity = cap ∧ 1 ≤ cap ∧ (keysOf s.entries).Nodup ∧ (s.entries.length : Int) ≤ cap

/-- LRUCache.get preserves the C2 invariant. -/
theorem lru_get_inv {cap : Int} {s : AdvCache.BState} {cid : String}
    (h : BInvC cap s) : BInvC cap (AdvCache.LRUCache.get s cid).2 := by
  rcases h with ⟨hcap, hpos, hnd, hlen⟩
  rcases hlook : lookupKV s.entries cid with _ | it
  · simp only [AdvCache.LRUCache.get, hlook]
    exact ⟨hcap, hpos, hnd, hlen⟩
  · have hmem : cid ∈ keysOf s.entries := by
      rw [← lookupKV_isSome_iff, hlook]
      rfl
    simp only [AdvCache.LRUCache.get, hlook]
    refine ⟨hcap, hpos, nodup_keys_erase_append hnd, ?_⟩
    have := length_eraseKV_of_mem hmem
    simp only [List.length_append, List.length_cons, List.length_nil]
    omega

/-- LRUCache.put on the C2 invariant: it always succeeds, preserves
the invariant, and evicts exactly one victim (bumping the eviction
counter by exactly 1) exactly when the id is absent and the cache is
full. -/
theorem lru_put_spec {cap : Int} {s : AdvCache.BState} (cid : String) (v : PyVal)
    (h : BInvC cap s) :
    ∃ s2, AdvCache.LRUCache.put s cid v = some s2 ∧ BInvC cap s2 ∧
      ((lookupKV s.entries cid = none ∧ (s.entries.length : Int) = cap) →
        s2.evictions = s.evictions + 1 ∧ (s2.entries.length : Int) = cap ∧
        ∃ victim, victim ∈ keysOf s.entries ∧ victim ∉ keysOf s2.entries ∧
          victim ≠ cid ∧ cid ∈ keysOf s2.entries ∧
          ∀ k ∈ keysOf s.entries, k ≠ victim → k ∈ keysOf s2.entries) ∧
      (¬(lookupKV s.entries cid = none ∧ (s.entries.length : Int) = cap) →
        s2.evictions = s.evictions) := by
  rcases h with ⟨hcap, hpos, hnd, hlen⟩
  rcases hlook : lookupKV s.entries cid with _ | it
  · have hcid : cid ∉ keysOf s.entries := lookupKV_eq_none.mp hlook
    by_cases hfull : (s.entries.length : Int) ≥ s.capacity
    · have hlencap : (s.entries.length : Int) = cap := le_antisymm hlen (hcap ▸ hfull)
      rcases hent : s.entries with _ | ⟨e, rest⟩
      · rw [hent] at hlencap
        simp only [List.length_nil, Nat.cast_zero] at hlencap
        omega
      · have hlook2 : lookupKV (e :: rest) cid = none := by
          rw [← hent]
          exact hlook
        have hfull2 : (((e :: rest).length : Nat) : Int) ≥ s.capacity := by
          rw [← hent]
          exact hfull
        have hndc : e.1 ∉ keysOf rest ∧ (keysOf rest).Nodup := by
          have h2 := hnd
          rw [hent] at h2
          simpa [keysOf, List.nodup_cons] using h2
        have hcid2 : ¬ (cid = e.1 ∨ cid ∈ keysOf rest) := by
          have h2 := hcid
          rw [hent] at h2
          simpa [keysOf, List.mem_cons] using h2
        have hcidrest : lookupKV rest cid = none := by
          rw [lookupKV_eq_none]
          intro hm
          exact hcid2 (Or.inr hm)
        have hlenrest : ((rest.length : Nat) : Int) + 1 = cap := by
          rw [hent] at hlencap
          simp only [List.length_cons] at hlencap
          omega
        refine ⟨{ s with entries := rest ++ [(cid, ⟨v, 0⟩)], evictions := s.evictions + 1 },
          ?_, ?_, ?_, ?_⟩
        · simp only [AdvCache.LRUCache.put, hent, hlook2, if_pos hfull2]
        · refine ⟨hcap, hpos, nodup_keys_append_new hndc.2 hcidrest, ?_⟩
          simp only [List.length_append, List.length_cons, List.length_nil]
          omega
        · intro _
          refine ⟨rfl, ?_, e.1, ?_, ?_, ?_, ?_, ?_⟩
          · simp only [List.length_append, List.length_cons, List.length_nil]
            omega
          · simp [keysOf]
          · simp only [keysOf_append]
            intro hm
            rcases List.mem_append.mp hm with hm | hm
            · exact hndc.1 hm
            · have he : e.1 = cid := by simpa [keysOf] using hm
              exact hcid2 (Or.inl he.symm)
          · intro he
            exact hcid2 (Or.inl he.symm)
          · rw [keysOf_append]
            simp [keysOf]
          · intro k hk hkne
            rw [keysOf_append]
            apply List.mem_append_left
            have hk2 : k = e.1 ∨ k ∈ keysOf rest := by
              simpa [keysOf, List.mem_cons] using hk
            rcases hk2 with hk2 | hk2
            · exact absurd hk2 hkne
            · exact hk2
        · intro hne2
          refine absurd ⟨rfl, ?_⟩ hne2
          rw [← hent]
          exact hlencap
    · refine ⟨{ s with entries := s.entries ++ [(cid, ⟨v, 0⟩)] }, ?_, ?_, ?_, ?_⟩
      · simp only [AdvCache.LRUCache.put, hlook, if_neg hfull]
      · refine ⟨hcap, hpos, nodup_keys_append_new hnd hlook, ?_⟩
        simp only [List.length_append, List.length_cons, List.length_nil]
        rw [hcap] at hfull
        push_neg at hfull
        omega
      · intro hcon
        rw [hcap] at hfull
        exact absurd hcon.2 (by omega)
      · intro _
        rfl
  · refine ⟨{ s with entries := eraseKV s.entries cid ++ [(cid, it)] }, ?_, ?_, ?_, ?_⟩
    · simp only [AdvCache.LRUCache.put, hlook]
    · have hmem : cid ∈ keysOf s.entries := by
        rw [← lookupKV_isSome_iff, hlook]
        rfl
      refine ⟨hcap, hpos, nodup_keys_erase_append hnd, ?_⟩
      have := length_eraseKV_of_mem hmem
      simp only [List.length_append, List.length_cons, List.length_nil]
      omega
    · intro hcon
      exact absurd hcon.1 (by simp)
    · intro _
      rfl

/-- FIFOCache.get preserves the C2 invariant (it only rewrites an item
in place). -/
theorem fifo_get_inv {cap : Int} {s : AdvCache.BState} {cid : String}
    (h : BInvC cap s) : BInvC cap (AdvCache.FIFOCache.get s cid).2 := by
  rcases h with ⟨hcap, hpos, hnd, hlen⟩
  rcases hlook : lookupKV s.entries cid with _ | it
  · simp only [AdvCache.FIFOCache.get, hlook]
    exact ⟨hcap, hpos, hnd, hlen⟩
  · simp only [AdvCache.FIFOCache.get, hlook]
    refine ⟨hcap, hpos, nodup_keysOf_updateKV hnd, ?_⟩
    rw [length_updateKV]
    exact hlen

/-- FIFOCache.put on the C2 invariant: always succeeds, preserves the
invariant, and evicts exactly one victim (eviction counter + 1)
exactly when the id is absent and the cache is full. -/
theorem fifo_put_spec {cap : Int} {s : AdvCache.BState} (cid : String) (v : PyVal)
    (h : BInvC cap s) :
    ∃ s2, AdvCache.FIFOCache.put s cid v = some s2 ∧ BInvC cap s2 ∧
      ((lookupKV s.entries cid = none ∧ (s.entries.length : Int) = cap) →
        s2.evictions = s.evictions + 1 ∧ (s2.entries.length : Int) = cap ∧
        ∃ victim, victim ∈ keysOf s.entries ∧ victim ∉ keysOf s2.entries ∧
          victim ≠ cid ∧ cid ∈ keysOf s2.entries ∧
          ∀ k ∈ keysOf s.entries, k ≠ victim → k ∈ keysOf s2.entries) ∧
      (¬(lookupKV s.entries cid = none ∧ (s.entries.length : Int) = cap) →
        s2.evictions = s.evictions) := by
  rcases h with ⟨hcap, hpos, hnd, hlen⟩
  rcases hlook : lookupKV s.entries cid with _ | it
  · have hcid : cid ∉ keysOf s.entries := lookupKV_eq_none.mp hlook
    by_cases hfull : (s.entries.length : Int) ≥ s.capacity
    · have hlencap : (s.entries.length : Int) = cap := le_antisymm hlen (hcap ▸ hfull)
      rcases hent : s.entries with _ | ⟨e, rest⟩
      · rw [hent] at hlencap
        simp only [List.length_nil, Nat.cast_zero] at hlencap
        omega
      · have hlook2 : lookupKV (e :: rest) cid = none := by
          rw [← hent]
          exact hlook
        have hfull2 : (((e :: rest).length : Nat) : Int) ≥ s.capacity := by
          rw [← hent]
          exact hfull
        have hndc : e.1 ∉ keysOf rest ∧ (keysOf rest).Nodup := by
          have h2 := hnd
          rw [hent] at h2
          simpa [keysOf, List.nodup_cons] using h2
        have hcid2 : ¬ (cid = e.1 ∨ cid ∈ keysOf rest) := by
          have h2 := hcid
          rw [hent] at h2
          simpa [keysOf, List.mem_cons] using h2
        have hcidrest : lookupKV rest cid = none := by
          rw [lookupKV_eq_none]
          intro hm
          exact hcid2 (Or.inr hm)
        have hlenrest : ((rest.length : Nat) : Int) + 1 = cap := by
          rw [hent] at hlencap
          simp only [List.length_cons] at hlencap
          omega
        refine ⟨{ s with entries := rest ++ [(cid, ⟨v, 0⟩)], evictions := s.evictions + 1 },
          ?_, ?_, ?_, ?_⟩
        · simp only [AdvCache.FIFOCache.put, hent, hlook2, if_pos hfull2]
        · refine ⟨hcap, hpos, nodup_keys_append_new hndc.2 hcidrest, ?_⟩
          simp only [List.length_append, List.length_cons, List.length_nil]
          omega
        · intro _
          refine ⟨rfl, ?_, e.1, ?_, ?_, ?_, ?_, ?_⟩
          · simp only [List.length_append, List.length_cons, List.length_nil]
            omega
          · simp [keysOf]
          · simp only [keysOf_append]
            intro hm
            rcases List.mem_append.mp hm with hm | hm
            · exact hndc.1 hm
            · have he : e.1 = cid := by simpa [keysOf] using hm
              exact hcid2 (Or.inl he.symm)
          · intro he
            exact hcid2 (Or.inl he.symm)
          · rw [keysOf_append]
            simp [keysOf]
          · intro k hk hkne
            rw [keysOf_append]
            apply List.mem_append_left
            have hk2 : k = e.1 ∨ k ∈ keysOf rest := by
              simpa [keysOf, List.mem_cons] using hk
            rcases hk2 with hk2 | hk2
            · exact absurd hk2 hkne
            · exact hk2
        · intro hne2
          refine absurd ⟨rfl, ?_⟩ hne2
          rw [← hent]
          exact hlencap
    · refine ⟨{ s with entries := s.entries ++ [(cid, ⟨v, 0⟩)] }, ?_, ?_, ?_, ?_⟩
      · simp only [AdvCache.FIFOCache.put, hlook, if_neg hfull]
      · refine ⟨hcap, hpos, nodup_keys_append_new hnd hlook, ?_⟩
        simp only [List.length_append, List.length_cons, List.length_nil]
        rw [hcap] at hfull
        push_neg at hfull
        omega
      · intro hcon
        rw [hcap] at hfull
        exact absurd hcon.2 (by omega)
      · intro _
        rfl
  · refine ⟨{ s with entries := updateKV s.entries cid { it with content := v } },
      ?_, ?_, ?_, ?_⟩
    · simp only [AdvCache.FIFOCache.put, hlook]
    · refine ⟨hcap, hpos, nodup_keysOf_updateKV hnd, ?_⟩
      rw [length_updateKV]
      exact hlen
    · intro hcon
      exact absurd hcon.1 (by simp)
    · intro _
      rfl

/-- Running any operation sequence on an LRU cache under the C2
invariant succeeds and preserves it. -/
theorem lru_run_inv {cap : Int} : ∀ (ops : List AdvCache.Op) {s : AdvCache.BState},
    BInvC cap s → ∃ s2, AdvCache.LRUCache.run s ops = some s2 ∧ BInvC cap s2 := by
  intro ops
  induction ops with
  | nil =>
    intro s h
    exact ⟨s, rfl, h⟩
  | cons op t ih =>
    intro s h
    cases op with
    | get cid =>
      rcases ih (@lru_get_inv cap s cid h) with ⟨s2, hrun, h2⟩
      exact ⟨s2, by simpa [AdvCache.LRUCache.run, AdvCache.LRUCache.step] using hrun, h2⟩
    | put cid v =>
      rcases lru_put_spec cid v h with ⟨s1, hput, h1, _, _⟩
      rcases ih h1 with ⟨s2, hrun, h2⟩
      refine ⟨s2, ?_, h2⟩
      simp only [AdvCache.LRUCache.run, AdvCache.LRUCache.step, hput, Option.some_bind]
      exact hrun
    | containsQ cid =>
      rcases ih h with ⟨s2, hrun, h2⟩
      exact ⟨s2, by simpa [AdvCache.LRUCache.run, AdvCache.LRUCache.step] using hrun, h2⟩

/-- Running any operation sequence on a FIFO cache under the C2
invariant succeeds and preserves it. -/
theorem fifo_run_inv {cap : Int} : ∀ (ops : List AdvCache.Op) {s : AdvCache.BState},
    BInvC cap s → ∃ s2, AdvCache.FIFOCache.run s ops = some s2 ∧ BInvC cap s2 := by
  intro ops
  induction ops with
  | nil =>
    intro s h
    exact ⟨s, rfl, h⟩
  | cons op t ih =>
    intro s h
    cases op with
    | get cid =>
      rcases ih (@fifo_get_inv cap s cid h) with ⟨s2, hrun, h2⟩
      exact ⟨s2, by simpa [AdvCache.FIFOCache.run, AdvCache.FIFOCache.step] using hrun, h2⟩
    | put cid v =>
      rcases fifo_put_spec cid v h with ⟨s1, hput, h1, _, _⟩
      rcases ih h1 with ⟨s2, hrun, h2⟩
      refine ⟨s2, ?_, h2⟩
      simp only [AdvCache.FIFOCache.run, AdvCache.FIFOCache.step, hput, Option.some_bind]
      exact hrun
    | containsQ cid =>
      rcases ih h with ⟨s2, hrun, h2⟩
      exact ⟨s2, by simpa [AdvCache.FIFOCache.run, AdvCache.FIFOCache.step] using hrun, h2⟩

/-- minList of a nonempty list is some. -/
theorem minList_ne_none {l : List Nat} (h : l ≠ []) :
    ∃ m, AdvCache.LFUCache.minList l = some m := by
  cases l with
  | nil => exact absurd rfl h
  | cons a t =>
    simp only [AdvCache.LFUCache.minList]
    rcases AdvCache.LFUCache.minList t with _ | b
    · exact ⟨a, rfl⟩
    · exact ⟨min a b, rfl⟩

/-- minList returns an element that is a lower bound. -/
theorem minList_spec {l : List Nat} {m : Nat}
    (h : AdvCache.LFUCache.minList l = some m) : m ∈ l ∧ ∀ x ∈ l, m ≤ x := by
  induction l generalizing m with
  | nil => exact absurd h (by simp [AdvCache.LFUCache.minList])
  | cons a t ih =>
    simp only [AdvCache.LFUCache.minList] at h
    rcases ht : AdvCache.LFUCache.minList t with _ | b
    · rw [ht] at h
      simp only [Option.some.injEq] at h
      have hte : t = [] := by
        by_contra hne
        rcases minList_ne_none hne with ⟨m2, hm2⟩
        rw [hm2] at ht
        exact Option.noConfusion ht
      subst hte
      rw [← h]
      exact ⟨List.mem_singleton_self a, by simp⟩
    · rw [ht] at h
      simp only [Option.some.injEq] at h
      rcases ih ht with ⟨hmem, hbound⟩
      constructor
      · rw [← h]
        rcases le_total a b with hab | hab
        · simp [min_eq_left hab]
        · right
          rw [min_eq_right hab]
          exact hmem
      · intro x hx
        rcases List.mem_cons.mp hx with hx | hx
        · rw [← h, hx]
          exact min_le_left a b
        · rw [← h]
          exact le_trans (min_le_right a b) (hbound x hx)

/-- What findEvict returns: the least frequency at or above the start
whose bucket exists and is nonempty. -/
theorem findEvict_spec {fm : List (Nat × List String)} {start f : Nat}
    (hnd : (keysOf fm).Nodup) (h : AdvCache.LFUCache.findEvict fm start = some f) :
    start ≤ f ∧ (∃ b, lookupKV fm f = some b ∧ b ≠ []) ∧
      ∀ g b2, lookupKV fm g = some b2 → b2 ≠ [] → start ≤ g → f ≤ g := by
  rcases minList_spec h with ⟨hmem, hbound⟩
  simp only [List.mem_map, List.mem_filter] at hmem
  rcases hmem with ⟨⟨g, b⟩, ⟨hgb, hpred⟩, hfst⟩
  simp only [Bool.and_eq_true, decide_eq_true_eq, Bool.not_eq_true', List.isEmpty_eq_false,
    ne_eq] at hpred
  cases hfst
  refine ⟨hpred.1, ⟨b, mem_lookupKV_of_nodup hnd hgb, hpred.2⟩, ?_⟩
  intro g2 b2 hl2 hb2 hs2
  apply hbound
  simp only [List.mem_map, List.mem_filter]
  refine ⟨(g2, b2), ⟨lookupKV_eq_some_mem hl2, ?_⟩, rfl⟩
  simp only [Bool.and_eq_true, decide_eq_true_eq, Bool.not_eq_true', List.isEmpty_eq_false,
    ne_eq]
  exact ⟨hs2, hb2⟩

/-- findEvict succeeds when some bucket at or above the start is
nonempty. -/
theorem findEvict_isSome {fm : List (Nat × List String)} {start f : Nat}
    {b : List String} (hl : lookupKV fm f = some b) (hb : b ≠ []) (hs : start ≤ f) :
    ∃ g, AdvCache.LFUCache.findEvict fm start = some g := by
  apply minList_ne_none
  intro hemp
  have : f ∈ (fm.filter (fun q => start ≤ q.1 && !q.2.isEmpty)).map Prod.fst := by
    simp only [List.mem_map, List.mem_filter]
    refine ⟨(f, b), ⟨lookupKV_eq_some_mem hl, ?_⟩, rfl⟩
    simp only [Bool.and_eq_true, decide_eq_true_eq, Bool.not_eq_true', List.isEmpty_eq_false,
      ne_eq]
    exact ⟨hs, hb⟩
  rw [hemp] at this
  exact List.not_mem_nil f this

/-- Lookup of the updated bucket after a defaultdict assignment when
the id was not in it. -/
theorem appendF_self_some {fm : List (Nat × List String)} {f : Nat} {cid : String}
    {b : List String} (h : lookupKV fm f = some b) :
    lookupKV (AdvCache.LFUCache.appendF fm f cid) f =
      some (if cid ∈ b then b else b ++ [cid]) := by
  have hmem : f ∈ keysOf fm := by
    rw [← lookupKV_isSome_iff, h]
    rfl
  simp only [AdvCache.LFUCache.appendF, h]
  exact lookupKV_updateKV_self hmem

/-- Lookup of the fresh bucket after a defaultdict assignment when the
frequency key did not exist. -/
theorem appendF_self_none {fm : List (Nat × List String)} {f : Nat} {cid : String}
    (h : lookupKV fm f = none) :
    lookupKV (AdvCache.LFUCache.appendF fm f cid) f = some [cid] := by
  simp only [AdvCache.LFUCache.appendF, h]
  rw [lookupKV_append_right h]
  simp [lookupKV]

/-- A defaultdict assignment at one frequency key leaves the others
alone. -/
theorem appendF_ne {fm : List (Nat × List String)} {f g : Nat} {cid : String}
    (hne : g ≠ f) :
    lookupKV (AdvCache.LFUCache.appendF fm f cid) g = lookupKV fm g := by
  rcases h : lookupKV fm f with _ | b
  · simp only [AdvCache.LFUCache.appendF, h]
    exact lookupKV_append_single_ne (fun he => hne he.symm)
  · simp only [AdvCache.LFUCache.appendF, h]
    exact lookupKV_updateKV_ne (fun he => hne he.symm)

/-- appendF keeps frequency keys distinct. -/
theorem appendF_nodup {fm : List (Nat × List String)} {f : Nat} {cid : String}
    (hnd : (keysOf fm).Nodup) :
    (keysOf (AdvCache.LFUCache.appendF fm f cid)).Nodup := by
  rcases h : lookupKV fm f with _ | b
  · simp only [AdvCache.LFUCache.appendF, h]
    exact nodup_keys_append_new hnd h
  · simp only [AdvCache.LFUCache.appendF, h]
    exact nodup_keysOf_updateKV hnd

/-- Well-formedness of an LFU state, maintained by the source: cache
keys and frequency keys are distinct, buckets are duplicate-free, every
cached item sits in exactly the bucket of its access count and every
bucket member is cached with that count, nonempty buckets never sit
below min_frequency, and access counts are positive. -/
structure LfuWF (s : AdvCache.LfuState) : Prop where
  ndCache : (keysOf s.cache).Nodup
  ndFreq : (keysOf s.freqMap).Nodup
  ndBucket : ∀ {f : Nat} {b : List String}, lookupKV s.freqMap f = some b → b.Nodup
  c2b : ∀ {cid : String} {it : AdvCache.Item}, lookupKV s.cache cid = some it →
    ∃ b, lookupKV s.freqMap it.accessCount = some b ∧ cid ∈ b
  b2c : ∀ {f : Nat} {b : List String} {cid : String},
    lookupKV s.freqMap f = some b → cid ∈ b →
    ∃ it, lookupKV s.cache cid = some it ∧ it.accessCount = f
  minLe : ∀ {f : Nat} {b : List String}, lookupKV s.freqMap f = some b → b ≠ [] →
    s.minFreq ≤ f
  pos : ∀ {cid : String} {it : AdvCache.Item}, lookupKV s.cache cid = some it →
    1 ≤ it.accessCount

/-- LFUCache.get preserves well-formedness and does not change the
number of entries, the capacity or the eviction counter. -/
theorem lfu_get_wf {s : AdvCache.LfuState} (cid : String) (hwf : LfuWF s) :
    LfuWF (AdvCache.LFUCache.get s cid).2 ∧
    (AdvCache.LFUCache.get s cid).2.cache.length = s.cache.length ∧
    (AdvCache.LFUCache.get s cid).2.capacity = s.capacity ∧
    (AdvCache.LFUCache.get s cid).2.evictions = s.evictions := by
  rcases hlook : lookupKV s.cache cid with _ | it
  · simp only [AdvCache.LFUCache.get, hlook]
    refine ⟨⟨hwf.ndCache, hwf.ndFreq, hwf.ndBucket, hwf.c2b, hwf.b2c, hwf.minLe,
      hwf.pos⟩, ?_, ?_, ?_⟩ <;> trivial
  · obtain ⟨b0, hb0, hcid0⟩ := hwf.c2b hlook
    have hmemc : cid ∈ keysOf s.cache := by
      rw [← lookupKV_isSome_iff, hlook]
      rfl
    have hfmem : it.accessCount ∈ keysOf s.freqMap := by
      rw [← lookupKV_isSome_iff, hb0]
      rfl
    have hne1 : it.accessCount ≠ it.accessCount + 1 := by omega
    have hf1self : lookupKV (updateKV s.freqMap it.accessCount (b0.erase cid))
        it.accessCount = some (b0.erase cid) := lookupKV_updateKV_self hfmem
    have hf1ne : ∀ g, g ≠ it.accessCount →
        lookupKV (updateKV s.freqMap it.accessCount (b0.erase cid)) g =
          lookupKV s.freqMap g :=
      fun g hg => lookupKV_updateKV_ne (fun he => hg he.symm)
    have hnotin1 : ∀ b1, lookupKV s.freqMap (it.accessCount + 1) = some b1 →
        cid ∉ b1 := by
      intro b1 hb1 hmem1
      obtain ⟨it2, hit2, hcnt2⟩ := hwf.b2c hb1 hmem1
      rw [hlook] at hit2
      injection hit2 with he
      rw [← he] at hcnt2
      omega
    have huniq : ∀ g bg, lookupKV s.freqMap g = some bg → cid ∈ bg →
        g = it.accessCount := by
      intro g bg hg hmem2
      obtain ⟨it2, hit2, hcnt2⟩ := hwf.b2c hg hmem2
      rw [hlook] at hit2
      injection hit2 with he
      rw [← he] at hcnt2
      exact hcnt2.symm
    have hf2old : lookupKV (AdvCache.LFUCache.appendF
        (updateKV s.freqMap it.accessCount (b0.erase cid)) (it.accessCount + 1) cid)
        it.accessCount = some (b0.erase cid) := by
      rw [appendF_ne hne1]
      exact hf1self
    have hf2oth : ∀ g, g ≠ it.accessCount → g ≠ it.accessCount + 1 →
        lookupKV (AdvCache.LFUCache.appendF
          (updateKV s.freqMap it.accessCount (b0.erase cid)) (it.accessCount + 1) cid) g =
        lookupKV s.freqMap g := by
      intro g hg0 hg1
      rw [appendF_ne hg1]
      exact hf1ne g hg0
    have hf2new : ∃ bN, lookupKV (AdvCache.LFUCache.appendF
        (updateKV s.freqMap it.accessCount (b0.erase cid)) (it.accessCount + 1) cid)
        (it.accessCount + 1) = some bN ∧ bN.Nodup ∧
        ∀ x, x ∈ bN ↔ (x = cid ∨
          ∃ b1, lookupKV s.freqMap (it.accessCount + 1) = some b1 ∧ x ∈ b1) := by
      rcases hb1 : lookupKV s.freqMap (it.accessCount + 1) with _ | b1
      · refine ⟨[cid], ?_, List.nodup_singleton cid, ?_⟩
        · exact appendF_self_none ((hf1ne _ (by omega)).trans hb1)
        · intro x
          simp
      · have hcnot := hnotin1 b1 hb1
        refine ⟨b1 ++ [cid], ?_, ?_, ?_⟩
        · rw [appendF_self_some ((hf1ne _ (by omega)).trans hb1)]
          rw [if_neg hcnot]
        · rw [List.nodup_append]
          exact ⟨hwf.ndBucket hb1, List.nodup_singleton cid, by
            intro a ha
            simp only [List.mem_singleton]
            intro hac
            rw [hac] at ha
            exact hcnot ha⟩
        · intro x
          constructor
          · intro hx
            rcases List.mem_append.mp hx with hx | hx
            · exact Or.inr ⟨b1, rfl, hx⟩
            · exact Or.inl (by simpa using hx)
          · intro hx
            rcases hx with hx | ⟨b2, hb2, hx⟩
            · apply List.mem_append_right
              simp [hx]
            · apply List.mem_append_left
              injection hb2 with hb2
              rw [hb2]
              exact hx
    obtain ⟨bN, hbN, hbNnd, hbNmem⟩ := hf2new
    have hminold : s.minFreq ≤ it.accessCount :=
      hwf.minLe hb0 (List.ne_nil_of_mem hcid0)
    simp only [AdvCache.LFUCache.get, hlook, hb0, hcid0, if_true]
    refine ⟨?_, ?_, ?_, ?_⟩
    rotate_left
    · exact length_updateKV
    · trivial
    · trivial
    refine ⟨?_, ?_, ?_, ?_, ?_, ?_, ?_⟩
    · exact nodup_keysOf_updateKV hwf.ndCache
    · apply appendF_nodup
      rw [keysOf_updateKV]
      exact hwf.ndFreq
    · intro f b hf
      by_cases hfe : f = it.accessCount + 1
      · subst hfe
        rw [hbN] at hf
        injection hf with hf
        rw [← hf]
        exact hbNnd
      · by_cases hfo : f = it.accessCount
        · subst hfo
          rw [hf2old] at hf
          injection hf with hf
          rw [← hf]
          exact (hwf.ndBucket hb0).erase cid
        · rw [hf2oth f hfo hfe] at hf
          exact hwf.ndBucket hf
    · intro cid2 it2 hl2
      by_cases hc : cid2 = cid
      · subst hc
        rw [lookupKV_updateKV_self hmemc] at hl2
        injection hl2 with hl2
        rw [← hl2]
        exact ⟨bN, hbN, (hbNmem cid2).mpr (Or.inl rfl)⟩
      · rw [lookupKV_updateKV_ne (fun he => hc he.symm)] at hl2
        obtain ⟨bg, hbg, hg⟩ := hwf.c2b hl2
        by_cases hg1 : it2.accessCount = it.accessCount + 1
        · rw [hg1] at hbg
          refine ⟨bN, hg1 ▸ hbN, (hbNmem cid2).mpr (Or.inr ⟨bg, hbg, hg⟩)⟩
        · by_cases hg0 : it2.accessCount = it.accessCount
          · rw [hg0] at hbg
            rw [hb0] at hbg
            injection hbg with hbg
            refine ⟨b0.erase cid, hg0 ▸ hf2old, ?_⟩
            rw [(hwf.ndBucket hb0).mem_erase_iff]
            exact ⟨hc, hbg ▸ hg⟩
          · exact ⟨bg, by rw [hf2oth _ hg0 hg1]; exact hbg, hg⟩
    · intro f b cid2 hf hmem2
      by_cases hfe : f = it.accessCount + 1
      · subst hfe
        rw [hbN] at hf
        injection hf with hf
        rw [← hf] at hmem2
        rcases (hbNmem cid2).mp hmem2 with hx | ⟨b1, hb1, hx⟩
        · subst hx
          refine ⟨⟨it.content, it.accessCount + 1⟩, lookupKV_updateKV_self hmemc, rfl⟩
        · obtain ⟨it2, hit2, hcnt2⟩ := hwf.b2c hb1 hx
          have hc2 : cid2 ≠ cid := by
            intro he
            subst he
            exact hnotin1 b1 hb1 hx
          exact ⟨it2, by rw [lookupKV_updateKV_ne (fun he => hc2 he.symm)]; exact hit2,
            hcnt2⟩
      · by_cases hfo : f = it.accessCount
        · subst hfo
          rw [hf2old] at hf
          injection hf with hf
          rw [← hf] at hmem2
          rw [(hwf.ndBucket hb0).mem_erase_iff] at hmem2
          obtain ⟨it2, hit2, hcnt2⟩ := hwf.b2c hb0 hmem2.2
          exact ⟨it2, by rw [lookupKV_updateKV_ne (fun he => hmem2.1 he.symm)]; exact hit2,
            hcnt2⟩
        · rw [hf2oth f hfo hfe] at hf
          obtain ⟨it2, hit2, hcnt2⟩ := hwf.b2c hf hmem2
          have hc2 : cid2 ≠ cid := by
            intro he
            subst he
            exact hfo (huniq f b hf hmem2)
          exact ⟨it2, by rw [lookupKV_updateKV_ne (fun he => hc2 he.symm)]; exact hit2,
            hcnt2⟩
    · intro f b hf hbne
      show (if b0.erase cid = [] ∧ it.accessCount = s.minFreq
        then s.minFreq + 1 else s.minFreq) ≤ f
      by_cases hcnd : b0.erase cid = [] ∧ it.accessCount = s.minFreq
      · rw [if_pos hcnd]
        by_cases hfe : f = it.accessCount + 1
        · omega
        · by_cases hfo : f = it.accessCount
          · subst hfo
            rw [hf2old] at hf
            injection hf with hf
            rw [← hf, hcnd.1] at hbne
            exact absurd rfl hbne
          · rw [hf2oth f hfo hfe] at hf
            have h1 := hwf.minLe hf hbne
            have h2 : f ≠ s.minFreq := by
              rw [← hcnd.2]
              exact hfo
            omega
      · rw [if_neg hcnd]
        by_cases hfe : f = it.accessCount + 1
        · omega
        · by_cases hfo : f = it.accessCount
          · omega
          · rw [hf2oth f hfo hfe] at hf
            exact hwf.minLe hf hbne
    · intro cid2 it2 hl2
      by_cases hc : cid2 = cid
      · subst hc
        rw [lookupKV_updateKV_self hmemc] at hl2
        injection hl2 with hl2
        rw [← hl2]
        simp
      · rw [lookupKV_updateKV_ne (fun he => hc he.symm)] at hl2
        exact hwf.pos hl2

/-- The insertion tail of LFUCache.put preserves well-formedness when
the id is absent, grows the cache by exactly one entry at the end, and
leaves capacity and evictions alone. -/
theorem lfu_insert_wf {s : AdvCache.LfuState} {cid : String} (v : PyVal)
    (hwf : LfuWF s) (habs : lookupKV s.cache cid = none) :
    LfuWF (AdvCache.LFUCache.insertNew s cid v) ∧
    (AdvCache.LFUCache.insertNew s cid v).cache.length = s.cache.length + 1 ∧
    lookupKV (AdvCache.LFUCache.insertNew s cid v).cache cid = some ⟨v, 1⟩ ∧
    (AdvCache.LFUCache.insertNew s cid v).capacity = s.capacity ∧
    (AdvCache.LFUCache.insertNew s cid v).evictions = s.evictions ∧
    keysOf (AdvCache.LFUCache.insertNew s cid v).cache = keysOf s.cache ++ [cid] := by
  have hnotin : ∀ {f : Nat} {b : List String}, lookupKV s.freqMap f = some b → cid ∉ b := by
    intro f b hb hmem
    obtain ⟨it2, hit2, _⟩ := hwf.b2c hb hmem
    rw [habs] at hit2
    exact Option.noConfusion hit2
  have hlc : ∀ {cid2 : String}, cid2 ≠ cid →
      lookupKV (s.cache ++ [(cid, (⟨v, 1⟩ : AdvCache.Item))]) cid2 =
        lookupKV s.cache cid2 :=
    fun h2 => lookupKV_append_single_ne (fun he => h2 he.symm)
  have hnew : ∃ bN, lookupKV (AdvCache.LFUCache.appendF s.freqMap 1 cid) 1 = some bN ∧
      bN.Nodup ∧
      ∀ x, x ∈ bN ↔ (x = cid ∨ ∃ b1, lookupKV s.freqMap 1 = some b1 ∧ x ∈ b1) := by
    rcases hb1 : lookupKV s.freqMap 1 with _ | b1
    · refine ⟨[cid], appendF_self_none hb1, List.nodup_singleton cid, ?_⟩
      intro x
      simp
    · have hcnot : cid ∉ b1 := hnotin hb1
      refine ⟨b1 ++ [cid], ?_, ?_, ?_⟩
      · rw [appendF_self_some hb1, if_neg hcnot]
      · rw [List.nodup_append]
        exact ⟨hwf.ndBucket hb1, List.nodup_singleton cid, by
          intro a ha
          simp only [List.mem_singleton]
          intro hac
          rw [hac] at ha
          exact hcnot ha⟩
      · intro x
        constructor
        · intro hx
          rcases List.mem_append.mp hx with hx | hx
          · exact Or.inr ⟨b1, rfl, hx⟩
          · exact Or.inl (by simpa using hx)
        · intro hx
          rcases hx with hx | ⟨b2, hb2, hx⟩
          · apply List.mem_append_right
            simp [hx]
          · apply List.mem_append_left
            injection hb2 with hb2
            rw [hb2]
            exact hx
  obtain ⟨bN, hbN, hbNnd, hbNmem⟩ := hnew
  have hfne : ∀ g, g ≠ 1 →
      lookupKV (AdvCache.LFUCache.appendF s.freqMap 1 cid) g = lookupKV s.freqMap g :=
    fun g hg => appendF_ne hg
  simp only [AdvCache.LFUCache.insertNew]
  refine ⟨⟨?_, ?_, ?_, ?_, ?_, ?_, ?_⟩, by simp,
    lookupKV_append_new habs, by trivial, by trivial, by simp [keysOf]⟩
  · exact nodup_keys_append_new hwf.ndCache habs
  · exact appendF_nodup hwf.ndFreq
  · intro f b hf
    by_cases hfe : f = 1
    · subst hfe
      rw [hbN] at hf
      injection hf with hf
      rw [← hf]
      exact hbNnd
    · rw [hfne f hfe] at hf
      exact hwf.ndBucket hf
  · intro cid2 it2 hl2
    by_cases hc : cid2 = cid
    · subst hc
      rw [lookupKV_append_new habs] at hl2
      injection hl2 with hl2
      rw [← hl2]
      exact ⟨bN, hbN, (hbNmem cid2).mpr (Or.inl rfl)⟩
    · rw [hlc hc] at hl2
      obtain ⟨bg, hbg, hg⟩ := hwf.c2b hl2
      by_cases hg1 : it2.accessCount = 1
      · rw [hg1] at hbg
        exact ⟨bN, hg1 ▸ hbN, (hbNmem cid2).mpr (Or.inr ⟨bg, hbg, hg⟩)⟩
      · exact ⟨bg, by rw [hfne _ hg1]; exact hbg, hg⟩
  · intro f b cid2 hf hmem2
    by_cases hfe : f = 1
    · subst hfe
      rw [hbN] at hf
      injection hf with hf
      rw [← hf] at hmem2
      rcases (hbNmem cid2).mp hmem2 with hx | ⟨b1, hb1, hx⟩
      · subst hx
        exact ⟨⟨v, 1⟩, lookupKV_append_new habs, rfl⟩
      · obtain ⟨it2, hit2, hcnt2⟩ := hwf.b2c hb1 hx
        have hc2 : cid2 ≠ cid := by
          intro he
          subst he
          exact hnotin hb1 hx
        exact ⟨it2, by rw [hlc hc2]; exact hit2, hcnt2⟩
    · rw [hfne f hfe] at hf
      obtain ⟨it2, hit2, hcnt2⟩ := hwf.b2c hf hmem2
      have hc2 : cid2 ≠ cid := by
        intro he
        rw [he, habs] at hit2
        exact Option.noConfusion hit2
      exact ⟨it2, by rw [hlc hc2]; exact hit2, hcnt2⟩
  · intro f b hf hbne
    show 1 ≤ f
    by_cases hfe : f = 1
    · omega
    · rw [hfne f hfe] at hf
      rcases hb2 : b with _ | ⟨x, bt⟩
      · exact absurd hb2 hbne
      · obtain ⟨it2, hit2, hcnt2⟩ := hwf.b2c hf (by rw [hb2]; exact List.mem_cons_self x bt)
        rw [← hcnt2]
        exact hwf.pos hit2
  · intro cid2 it2 hl2
    by_cases hc : cid2 = cid
    · subst hc
      rw [lookupKV_append_new habs] at hl2
      injection hl2 with hl2
      rw [← hl2]
    · rw [hlc hc] at hl2
      exact hwf.pos hl2

/-- Overwriting the stored content of an existing item (same access
count) preserves well-formedness. -/
theorem lfu_content_wf {s : AdvCache.LfuState} {cid : String} {it2 : AdvCache.Item}
    (v : PyVal) (hwf : LfuWF s) (h : lookupKV s.cache cid = some it2) :
    LfuWF { s with cache := updateKV s.cache cid ⟨v, it2.accessCount⟩ } := by
  have hmem : cid ∈ keysOf s.cache := by
    rw [← lookupKV_isSome_iff, h]
    rfl
  have hne : ∀ {cid3 : String}, cid3 ≠ cid →
      lookupKV (updateKV s.cache cid (⟨v, it2.accessCount⟩ : AdvCache.Item)) cid3 =
        lookupKV s.cache cid3 :=
    fun h3 => lookupKV_updateKV_ne (fun he => h3 he.symm)
  refine ⟨?_, hwf.ndFreq, hwf.ndBucket, ?_, ?_, hwf.minLe, ?_⟩
  · exact nodup_keysOf_updateKV hwf.ndCache
  · intro cid3 it3 hl3
    by_cases hc : cid3 = cid
    · subst hc
      rw [lookupKV_updateKV_self hmem] at hl3
      injection hl3 with hl3
      rw [← hl3]
      obtain ⟨b, hb, hm⟩ := hwf.c2b h
      exact ⟨b, hb, hm⟩
    · rw [hne hc] at hl3
      exact hwf.c2b hl3
  · intro f b cid3 hf hmem3
    obtain ⟨it3, hit3, hcnt3⟩ := hwf.b2c hf hmem3
    by_cases hc : cid3 = cid
    · subst hc
      rw [h] at hit3
      injection hit3 with hit3
      refine ⟨⟨v, it2.accessCount⟩, lookupKV_updateKV_self hmem, ?_⟩
      rw [hit3]
      exact hcnt3
    · exact ⟨it3, by rw [hne hc]; exact hit3, hcnt3⟩
  · intro cid3 it3 hl3
    by_cases hc : cid3 = cid
    · subst hc
      rw [lookupKV_updateKV_self hmem] at hl3
      injection hl3 with hl3
      rw [← hl3]
      have h5 := hwf.pos h
      exact h5
    · rw [hne hc] at hl3
      exact hwf.pos hl3

/-- The eviction step of LFUCache.put preserves well-formedness: the
head of the least nonempty bucket at or above min_frequency is removed
from cache and bucket. -/
theorem lfu_evict_wf {s : AdvCache.LfuState} {f : Nat} {victim : String}
    {brest : List String} (hwf : LfuWF s)
    (hfb : lookupKV s.freqMap f = some (victim :: brest))
    (hleast : ∀ g b2, lookupKV s.freqMap g = some b2 → b2 ≠ [] → s.minFreq ≤ g → f ≤ g) :
    LfuWF { s with cache := eraseKV s.cache victim,
                   freqMap := updateKV s.freqMap f brest,
                   minFreq := f, evictions := s.evictions + 1 } ∧
    victim ∈ keysOf s.cache := by
  obtain ⟨vit, hvl, hvc⟩ := hwf.b2c hfb (List.mem_cons_self victim brest)
  have hvmem : victim ∈ keysOf s.cache := by
    rw [← lookupKV_isSome_iff, hvl]
    rfl
  have hfmem : f ∈ keysOf s.freqMap := by
    rw [← lookupKV_isSome_iff, hfb]
    rfl
  have hndb := hwf.ndBucket hfb
  have hvnotb : victim ∉ brest := (List.nodup_cons.mp hndb).1
  have hf1self : lookupKV (updateKV s.freqMap f brest) f = some brest :=
    lookupKV_updateKV_self hfmem
  have hf1ne : ∀ g, g ≠ f →
      lookupKV (updateKV s.freqMap f brest) g = lookupKV s.freqMap g :=
    fun g hg => lookupKV_updateKV_ne (fun he => hg he.symm)
  have hlerase : ∀ {cid3 : String}, cid3 ≠ victim →
      lookupKV (eraseKV s.cache victim) cid3 = lookupKV s.cache cid3 :=
    fun h3 => lookupKV_eraseKV_ne (fun he => h3 he.symm)
  refine ⟨⟨?_, ?_, ?_, ?_, ?_, ?_, ?_⟩, hvmem⟩
  · exact nodup_keysOf_eraseKV hwf.ndCache
  · rw [keysOf_updateKV]
    exact hwf.ndFreq
  · intro g b hg
    by_cases hgf : g = f
    · subst hgf
      rw [hf1self] at hg
      injection hg with hg
      rw [← hg]
      exact (List.nodup_cons.mp hndb).2
    · rw [hf1ne g hgf] at hg
      exact hwf.ndBucket hg
  · intro cid3 it3 hl3
    have hc3 : cid3 ≠ victim := by
      intro he
      rw [he, lookupKV_eraseKV_self hwf.ndCache] at hl3
      exact Option.noConfusion hl3
    rw [hlerase hc3] at hl3
    obtain ⟨bg, hbg, hg⟩ := hwf.c2b hl3
    by_cases hgf : it3.accessCount = f
    · rw [hgf] at hbg
      rw [hfb] at hbg
      injection hbg with hbg
      refine ⟨brest, hgf ▸ hf1self, ?_⟩
      rw [← hbg] at hg
      rcases List.mem_cons.mp hg with hg | hg
      · exact absurd hg hc3
      · exact hg
    · exact ⟨bg, by rw [hf1ne _ hgf]; exact hbg, hg⟩
  · intro g b cid3 hg hmem3
    by_cases hgf : g = f
    · subst hgf
      rw [hf1self] at hg
      injection hg with hg
      rw [← hg] at hmem3
      have hc3 : cid3 ≠ victim := by
        intro he
        rw [he] at hmem3
        exact hvnotb hmem3
      obtain ⟨it3, hit3, hcnt3⟩ :=
        hwf.b2c hfb (List.mem_cons_of_mem victim hmem3)
      exact ⟨it3, by rw [hlerase hc3]; exact hit3, hcnt3⟩
    · rw [hf1ne g hgf] at hg
      obtain ⟨it3, hit3, hcnt3⟩ := hwf.b2c hg hmem3
      have hc3 : cid3 ≠ victim := by
        intro he
        subst he
        rw [hvl] at hit3
        injection hit3 with hit3
        rw [← hit3] at hcnt3
        rw [hvc] at hcnt3
        exact hgf hcnt3.symm
      exact ⟨it3, by rw [hlerase hc3]; exact hit3, hcnt3⟩
  · intro g b hg hbne
    show f ≤ g
    by_cases hgf : g = f
    · omega
    · rw [hf1ne g hgf] at hg
      exact hleast g b hg hbne (hwf.minLe hg hbne)
  · intro cid3 it3 hl3
    have hc3 : cid3 ≠ victim := by
      intro he
      rw [he, lookupKV_eraseKV_self hwf.ndCache] at hl3
      exact Option.noConfusion hl3
    rw [hlerase hc3] at hl3
    exact hwf.pos hl3

/-- The C2 invariant for the LFU cache: fixed positive capacity,
well-formed state, at most capacity entries. -/
def LfuInvC (cap : Int) (s : AdvCache.LfuState) : Prop :=
  s.capacity = cap ∧ 1 ≤ cap ∧ LfuWF s ∧ (s.cache.length : Int) ≤ cap

/-- LFUCache.get preserves the C2 invariant. -/
theorem lfu_get_inv {cap : Int} {s : AdvCache.LfuState} {cid : String}
    (h : LfuInvC cap s) : LfuInvC cap (AdvCache.LFUCache.get s cid).2 := by
  rcases h with ⟨hcap, hpos, hwf, hlen⟩
  obtain ⟨hwf2, hlen2, hcap2, _⟩ := lfu_get_wf cid hwf
  exact ⟨hcap2.trans hcap, hpos, hwf2, by rw [hlen2]; exact hlen⟩

/-- LFUCache.put on the C2 invariant: always succeeds, preserves the
invariant, and evicts exactly one victim (eviction counter + 1)
exactly when the id is absent and the cache is full. -/
theorem lfu_put_spec {cap : Int} {s : AdvCache.LfuState} (cid : String) (v : PyVal)
    (h : LfuInvC cap s) :
    ∃ s2, AdvCache.LFUCache.put s cid v = some s2 ∧ LfuInvC cap s2 ∧
      ((lookupKV s.cache cid = none ∧ (s.cache.length : Int) = cap) →
        s2.evictions = s.evictions + 1 ∧ (s2.cache.length : Int) = cap ∧
        ∃ victim, victim ∈ keysOf s.cache ∧ victim ∉ keysOf s2.cache ∧
          victim ≠ cid ∧ cid ∈ keysOf s2.cache ∧
          ∀ k ∈ keysOf s.cache, k ≠ victim → k ∈ keysOf s2.cache) ∧
      (¬(lookupKV s.cache cid = none ∧ (s.cache.length : Int) = cap) →
        s2.evictions = s.evictions) := by
  rcases h with ⟨hcap, hpos, hwf, hlen⟩
  rcases hlook : lookupKV s.cache cid with _ | it
  · have hcid : cid ∉ keysOf s.cache := lookupKV_eq_none.mp hlook
    by_cases hfull : (s.cache.length : Int) ≥ s.capacity
    · have hlencap : (s.cache.length : Int) = cap := le_antisymm hlen (hcap ▸ hfull)
      have hne0 : s.cache ≠ [] := by
        intro he
        rw [he] at hlencap
        simp only [List.length_nil, Nat.cast_zero] at hlencap
        omega
      obtain ⟨e, rest, hent⟩ := List.exists_cons_of_ne_nil hne0
      have hheadl : lookupKV s.cache e.1 = some e.2 := by
        rw [hent]
        simp [lookupKV]
      obtain ⟨bh, hbh, hmemh⟩ := hwf.c2b hheadl
      have hminh : s.minFreq ≤ e.2.accessCount :=
        hwf.minLe hbh (List.ne_nil_of_mem hmemh)
      obtain ⟨f, hfe⟩ := findEvict_isSome hbh (List.ne_nil_of_mem hmemh) hminh
      obtain ⟨hstart, ⟨b, hfb, hbne⟩, hleast⟩ := findEvict_spec hwf.ndFreq hfe
      rcases hbcons : b with _ | ⟨victim, brest⟩
      · exact absurd hbcons hbne
      rw [hbcons] at hfb
      obtain ⟨hwf1, hvmem⟩ := lfu_evict_wf hwf hfb hleast
      have habs1 : lookupKV (eraseKV s.cache victim) cid = none :=
        lookupKV_eraseKV_of_none hlook
      obtain ⟨hwf2, hlen2, hlkup2, hcap2, hev2, hkeys2⟩ := lfu_insert_wf v hwf1 habs1
      have hvne : victim ≠ cid := by
        intro he
        rw [he] at hvmem
        exact hcid hvmem
      have herle := length_eraseKV_of_mem hvmem
      refine ⟨AdvCache.LFUCache.insertNew { s with cache := eraseKV s.cache victim, freqMap := updateKV s.freqMap f brest, minFreq := f, evictions := s.evictions + 1 } cid v, ?_, ?_, ?_, ?_⟩
      · simp only [AdvCache.LFUCache.put, hlook, if_pos hfull, hfe, hfb]
      · refine ⟨hcap2.trans hcap, hpos, hwf2, ?_⟩
        rw [hlen2]
        simp only [List.length_cons]
        omega
      · intro _
        refine ⟨hev2.trans rfl, ?_, victim, hvmem, ?_, hvne, ?_, ?_⟩
        · rw [hlen2]
          simp only [List.length_cons]
          omega
        · rw [hkeys2]
          intro hm
          rcases List.mem_append.mp hm with hm | hm
          · exact not_mem_keysOf_eraseKV_self hwf.ndCache hm
          · exact hvne (by simpa using hm)
        · rw [hkeys2]
          apply List.mem_append_right
          simp
        · intro k hk hkne
          rw [hkeys2]
          exact List.mem_append_left _ (mem_keysOf_eraseKV_of_ne hk hkne)
      · intro hne2
        exact absurd ⟨rfl, hlencap⟩ hne2
    · obtain ⟨hwf2, hlen2, hlkup2, hcap2, hev2, hkeys2⟩ := lfu_insert_wf v hwf hlook
      refine ⟨AdvCache.LFUCache.insertNew s cid v, ?_, ?_, ?_, ?_⟩
      · simp only [AdvCache.LFUCache.put, hlook, if_neg hfull]
      · refine ⟨hcap2.trans hcap, hpos, hwf2, ?_⟩
        rw [hlen2]
        rw [hcap] at hfull
        push_neg at hfull
        simp only [Nat.cast_add, Nat.cast_one]
        omega
      · intro hcon
        rw [hcap] at hfull
        exact absurd hcon.2 (by omega)
      · intro _
        exact hev2
  · have hmem : cid ∈ keysOf s.cache := by
      rw [← lookupKV_isSome_iff, hlook]
      rfl
    have hg := lfu_get_hit hlook
    obtain ⟨hwfg, hleng, hcapg, hevg⟩ := lfu_get_wf cid hwf
    have hl2 : lookupKV (AdvCache.LFUCache.get s cid).2.cache cid =
        some ⟨it.content, it.accessCount + 1⟩ := by
      rw [hg.2.1]
      exact lookupKV_updateKV_self hmem
    have hwff := lfu_content_wf v hwfg hl2
    refine ⟨{ (AdvCache.LFUCache.get s cid).2 with
        cache := updateKV (AdvCache.LFUCache.get s cid).2.cache cid
          ⟨v, it.accessCount + 1⟩ }, ?_, ?_, ?_, ?_⟩
    · simp only [AdvCache.LFUCache.put, hlook, hl2]
    · refine ⟨hcapg.trans hcap, hpos, ?_, ?_⟩
      · exact hwff
      · rw [length_updateKV, hleng]
        exact hlen
    · intro hcon
      exact absurd hcon.1 (by simp)
    · intro _
      exact hevg

/-- Running any operation sequence on an LFU cache under the C2
invariant succeeds and preserves it. -/
theorem lfu_run_inv {cap : Int} : ∀ (ops : List AdvCache.Op) {s : AdvCache.LfuState},
    LfuInvC cap s → ∃ s2, AdvCache.LFUCache.run s ops = some s2 ∧ LfuInvC cap s2 := by
  intro ops
  induction ops with
  | nil =>
    intro s h
    exact ⟨s, rfl, h⟩
  | cons op t ih =>
    intro s h
    cases op with
    | get cid =>
      rcases ih (@lfu_get_inv cap s cid h) with ⟨s2, hrun, h2⟩
      exact ⟨s2, by simpa [AdvCache.LFUCache.run, AdvCache.LFUCache.step] using hrun, h2⟩
    | put cid v =>
      rcases lfu_put_spec cid v h with ⟨s1, hput, h1, _, _⟩
      rcases ih h1 with ⟨s2, hrun, h2⟩
      refine ⟨s2, ?_, h2⟩
      simp only [AdvCache.LFUCache.run, AdvCache.LFUCache.step, hput, Option.some_bind]
      exact hrun
    | containsQ cid =>
      rcases ih h with ⟨s2, hrun, h2⟩
      exact ⟨s2, by simpa [AdvCache.LFUCache.run, AdvCache.LFUCache.step] using hrun, h2⟩

/-- The empty LFU cache is well-formed. -/
theorem lfu_wf_init (cap : Int) : LfuWF (AdvCache.LFUCache.init cap) := by
  constructor
  · simp [AdvCache.LFUCache.init, keysOf]
  · simp [AdvCache.LFUCache.init, keysOf]
  · intro f b h
    simp [AdvCache.LFUCache.init, lookupKV] at h
  · intro cid it h
    simp [AdvCache.LFUCache.init, lookupKV] at h
  · intro f b cid h
    simp [AdvCache.LFUCache.init, lookupKV] at h
  · intro f b h
    simp [AdvCache.LFUCache.init, lookupKV] at h
  · intro cid it h
    simp [AdvCache.LFUCache.init, lookupKV] at h

/-- Claim C2.  For each of the LRU, FIFO and LFU caches constructed
with capacity C ≥ 1 and every sequence of get/put/contains calls: the
run completes (no exception), the number of stored entries stays ≤ C
(quantifying over all sequences covers every prefix, so the bound holds
after every call), and at every reachable state a put of an absent id
into a cache holding exactly C entries evicts exactly one victim —
the eviction counter rises by exactly 1, the size stays C, and the new
key set is the old one minus one victim plus the new id — while any
other put never evicts. -/
theorem spec_C2 (cap : Int) (hcap : 1 ≤ cap) (ops : List AdvCache.Op) :
    (∃ s, AdvCache.LRUCache.run (AdvCache.LRUCache.init cap) ops = some s ∧
      (s.entries.length : Int) ≤ cap ∧
      ∀ cid v, ∃ s2, AdvCache.LRUCache.put s cid v = some s2 ∧
        ((lookupKV s.entries cid = none ∧ (s.entries.length : Int) = cap) →
          s2.evictions = s.evictions + 1 ∧ (s2.entries.length : Int) = cap ∧
          ∃ victim, victim ∈ keysOf s.entries ∧ victim ∉ keysOf s2.entries ∧
            victim ≠ cid ∧ cid ∈ keysOf s2.entries ∧
            ∀ k ∈ keysOf s.entries, k ≠ victim → k ∈ keysOf s2.entries) ∧
        (¬(lookupKV s.entries cid = none ∧ (s.entries.length : Int) = cap) →
          s2.evictions = s.evictions)) ∧
    (∃ s, AdvCache.FIFOCache.run (AdvCache.FIFOCache.init cap) ops = some s ∧
      (s.entries.length : Int) ≤ cap ∧
      ∀ cid v, ∃ s2, AdvCache.FIFOCache.put s cid v = some s2 ∧
        ((lookupKV s.entries cid = none ∧ (s.entries.length : Int) = cap) →
          s2.evictions = s.evictions + 1 ∧ (s2.entries.length : Int) = cap ∧
          ∃ victim, victim ∈ keysOf s.entries ∧ victim ∉ keysOf s2.entries ∧
            victim ≠ cid ∧ cid ∈ keysOf s2.entries ∧
            ∀ k ∈ keysOf s.entries, k ≠ victim → k ∈ keysOf s2.entries) ∧
        (¬(lookupKV s.entries cid = none ∧ (s.entries.length : Int) = cap) →
          s2.evictions = s.evictions)) ∧
    (∃ s, AdvCache.LFUCache.run (AdvCache.LFUCache.init cap) ops = some s ∧
      (s.cache.length : Int) ≤ cap ∧
      ∀ cid v, ∃ s2, AdvCache.LFUCache.put s cid v = some s2 ∧
        ((lookupKV s.cache cid = none ∧ (s.cache.length : Int) = cap) →
          s2.evictions = s.evictions + 1 ∧ (s2.cache.length : Int) = cap ∧
          ∃ victim, victim ∈ keysOf s.cache ∧ victim ∉ keysOf s2.cache ∧
            victim ≠ cid ∧ cid ∈ keysOf s2.cache ∧
            ∀ k ∈ keysOf s.cache, k ≠ victim → k ∈ keysOf s2.cache) ∧
        (¬(lookupKV s.cache cid = none ∧ (s.cache.length : Int) = cap) →
          s2.evictions = s.evictions)) := by
  refine ⟨?_, ?_, ?_⟩
  · have hinit : BInvC cap (AdvCache.LRUCache.init cap) := by
      refine ⟨rfl, hcap, by simp [AdvCache.LRUCache.init, keysOf], ?_⟩
      simp only [AdvCache.LRUCache.init, List.length_nil, Nat.cast_zero]
      omega
    obtain ⟨s, hrun, hinv⟩ := lru_run_inv ops hinit
    refine ⟨s, hrun, hinv.2.2.2, ?_⟩
    intro cid v
    obtain ⟨s2, hput, _, hd1, hd2⟩ := lru_put_spec cid v hinv
    exact ⟨s2, hput, hd1, hd2⟩
  · have hinit : BInvC cap (AdvCache.FIFOCache.init cap) := by
      refine ⟨rfl, hcap, by simp [AdvCache.FIFOCache.init, keysOf], ?_⟩
      simp only [AdvCache.FIFOCache.init, List.length_nil, Nat.cast_zero]
      omega
    obtain ⟨s, hrun, hinv⟩ := fifo_run_inv ops hinit
    refine ⟨s, hrun, hinv.2.2.2, ?_⟩
    intro cid v
    obtain ⟨s2, hput, _, hd1, hd2⟩ := fifo_put_spec cid v hinv
    exact ⟨s2, hput, hd1, hd2⟩
  · have hinit : LfuInvC cap (AdvCache.LFUCache.init cap) := by
      refine ⟨rfl, hcap, lfu_wf_init cap, ?_⟩
      simp only [AdvCache.LFUCache.init, List.length_nil, Nat.cast_zero]
      omega
    obtain ⟨s, hrun, hinv⟩ := lfu_run_inv ops hinit
    refine ⟨s, hrun, hinv.2.2.2, ?_⟩
    intro cid v
    obtain ⟨s2, hput, _, hd1, hd2⟩ := lfu_put_spec cid v hinv
    exact ⟨s2, hput, hd1, hd2⟩

/-- Witness for spec_C2 at capacity 1 with a one-put call sequence. -/
theorem spec_C2_witness :
    (1 : Int) ≤ 1 ∧
    (∃ s, AdvCache.LRUCache.run (AdvCache.LRUCache.init 1)
        [AdvCache.Op.put "a" (PyVal.int 1)] = some s ∧ (s.entries.length : Int) ≤ 1) ∧
    (∃ s, AdvCache.LFUCache.run (AdvCache.LFUCache.init 1)
        [AdvCache.Op.put "a" (PyVal.int 1)] = some s ∧ (s.cache.length : Int) ≤ 1) := by
  obtain ⟨⟨s1, h1, h2, _⟩, _, ⟨s3, h5, h6, _⟩⟩ :=
    spec_C2 1 (by decide) [AdvCache.Op.put "a" (PyVal.int 1)]
  exact ⟨by decide, ⟨s1, h1, h2⟩, ⟨s3, h5, h6⟩⟩

/-! ## Claim C8: inter-satellite neighbor hits -/

/-- Well-formedness of an AdaptiveCache state reachable from init:
well-formed constituent caches with positive capacity, and zero
windowed counters for the non-current strategies (claim C3's run
invariant). -/
def AdaptiveWF (s : AdvCache.AdState) : Prop :=
  BInvC s.lruCache.capacity s.lruCache ∧
  LfuInvC s.lfuCache.capacity s.lfuCache ∧
  BInvC s.fifoCache.capacity s.fifoCache ∧
  PerfZero s

/-- Well-formedness of a constellation cache_policy object. -/
def PolicyWF : Constellation.Policy → Prop
  | .lru s => BInvC s.capacity s
  | .lfu s => LfuInvC s.capacity s
  | .fifo s => BInvC s.capacity s
  | .adaptive s => AdaptiveWF s

/-- With zero windowed counters outside the current strategy, the
trailing evaluation branch of AdaptiveCache.get is the identity. -/
theorem eval_if_id {X : AdvCache.AdState} {c : Prop} [Decidable c] (hz : PerfZero X) :
    (if c then AdvCache.AdaptiveCache.evaluateAndSwitch X else X) = X := by
  by_cases h : c
  · rw [if_pos h, evaluateAndSwitch_id X hz]
  · rw [if_neg h]

/-- AdaptiveCache.get on a contained id, from a state whose non-current
windowed counters are zero: the current strategy survives and the
current strategy's constituent cache records one hit. -/
theorem ad_get_hit {s : AdvCache.AdState} (cid : String) (hz : PerfZero s)
    (hc : AdvCache.AdaptiveCache.containsB s cid = true) :
    (AdvCache.AdaptiveCache.get s cid).2.currentStrategy = s.currentStrategy ∧
    (s.currentStrategy = AdvCache.Strat.lru →
      (AdvCache.AdaptiveCache.get s cid).2.lruCache.hits = s.lruCache.hits + 1) ∧
    (s.currentStrategy = AdvCache.Strat.lfu →
      (AdvCache.AdaptiveCache.get s cid).2.lfuCache.hits = s.lfuCache.hits + 1) ∧
    (s.currentStrategy = AdvCache.Strat.fifo →
      (AdvCache.AdaptiveCache.get s cid).2.fifoCache.hits = s.fifoCache.hits + 1) := by
  cases hcs : s.currentStrategy
  case lru =>
    have hlook : ∃ it, lookupKV s.lruCache.entries cid = some it := by
      simp only [AdvCache.AdaptiveCache.containsB, hcs, AdvCache.LRUCache.containsB,
        Option.isSome_iff_exists] at hc
      exact hc
    obtain ⟨it, hlook⟩ := hlook
    simp only [AdvCache.AdaptiveCache.get, hcs, AdvCache.AdaptiveCache.getPerf,
      AdvCache.AdaptiveCache.setPerf]
    rw [eval_if_id]
    · refine ⟨rfl, fun _ => ?_, fun h => absurd h (by decide), fun h => absurd h (by decide)⟩
      simp only [AdvCache.LRUCache.get, hlook]
    · exact ⟨fun hne => absurd rfl hne,
        fun _ => hz.2.1 (by rw [hcs]; decide),
        fun _ => hz.2.2 (by rw [hcs]; decide)⟩
  case lfu =>
    have hlook : ∃ it, lookupKV s.lfuCache.cache cid = some it := by
      simp only [AdvCache.AdaptiveCache.containsB, hcs, AdvCache.LFUCache.containsB,
        Option.isSome_iff_exists] at hc
      exact hc
    obtain ⟨it, hlook⟩ := hlook
    simp only [AdvCache.AdaptiveCache.get, hcs, AdvCache.AdaptiveCache.getPerf,
      AdvCache.AdaptiveCache.setPerf]
    rw [eval_if_id]
    · refine ⟨rfl, fun h => absurd h (by decide), fun _ => ?_, fun h => absurd h (by decide)⟩
      exact (lfu_get_hit hlook).2.2.1
    · exact ⟨fun _ => hz.1 (by rw [hcs]; decide),
        fun hne => absurd rfl hne,
        fun _ => hz.2.2 (by rw [hcs]; decide)⟩
  case fifo =>
    have hlook : ∃ it, lookupKV s.fifoCache.entries cid = some it := by
      simp only [AdvCache.AdaptiveCache.containsB, hcs, AdvCache.FIFOCache.containsB,
        Option.isSome_iff_exists] at hc
      exact hc
    obtain ⟨it, hlook⟩ := hlook
    simp only [AdvCache.AdaptiveCache.get, hcs, AdvCache.AdaptiveCache.getPerf,
      AdvCache.AdaptiveCache.setPerf]
    rw [eval_if_id]
    · refine ⟨rfl, fun h => absurd h (by decide), fun h => absurd h (by decide), fun _ => ?_⟩
      simp only [AdvCache.FIFOCache.get, hlook]
    · exact ⟨fun _ => hz.1 (by rw [hcs]; decide),
        fun _ => hz.2.1 (by rw [hcs]; decide),
        fun hne => absurd rfl hne⟩

/-- cache_policy.get on a contained id bumps the policy's hit counter
by exactly 1 (for AdaptiveCache the current constituent's counter,
given its run invariant). -/
theorem poly_get_hit {p : Constellation.Policy} {cid : String}
    (hwf : PolicyWF p) (hc : p.containsB cid = true) :
    (p.getP cid).2.hitsP = p.hitsP + 1 := by
  cases p with
  | lru s =>
    have hlook : ∃ it, lookupKV s.entries cid = some it := by
      simpa [Constellation.Policy.containsB, AdvCache.LRUCache.containsB,
        Option.isSome_iff_exists] using hc
    obtain ⟨it, hlook⟩ := hlook
    simp [Constellation.Policy.getP, Constellation.Policy.hitsP,
      AdvCache.LRUCache.get, hlook]
  | lfu s =>
    have hlook : ∃ it, lookupKV s.cache cid = some it := by
      simpa [Constellation.Policy.containsB, AdvCache.LFUCache.containsB,
        Option.isSome_iff_exists] using hc
    obtain ⟨it, hlook⟩ := hlook
    simp only [Constellation.Policy.getP, Constellation.Policy.hitsP]
    exact (lfu_get_hit hlook).2.2.1
  | fifo s =>
    have hlook : ∃ it, lookupKV s.entries cid = some it := by
      simpa [Constellation.Policy.containsB, AdvCache.FIFOCache.containsB,
        Option.isSome_iff_exists] using hc
    obtain ⟨it, hlook⟩ := hlook
    simp [Constellation.Policy.getP, Constellation.Policy.hitsP,
      AdvCache.FIFOCache.get, hlook]
  | adaptive s =>
    obtain ⟨hcur, hl1, hl2, hl3⟩ := ad_get_hit cid hwf.2.2.2 hc
    simp only [Constellation.Policy.getP, Constellation.Policy.hitsP, hcur]
    cases hcs : s.currentStrategy
    · rw [hl1 hcs]
    · rw [hl2 hcs]
    · rw [hl3 hcs]


/-- A key absent from a cons cell is absent from its tail. -/
theorem lookupKV_cons_none {κ : Type} [DecidableEq κ] {α : Type}
    {p : κ × α} {t : List (κ × α)} {k : κ}
    (h : lookupKV (p :: t) k = none) : lookupKV t k = none := by
  by_cases hp : p.1 = k
  · simp [lookupKV, hp] at h
  · simpa [lookupKV, hp] using h

/-- LRUCache.put of an absent id succeeds and leaves the id cached,
whenever the capacity is positive. -/
theorem lru_put_absent_contains {s : AdvCache.BState} (cid : String) (v : PyVal)
    (hpos : 1 ≤ s.capacity) (hmiss : lookupKV s.entries cid = none) :
    ∃ s2, AdvCache.LRUCache.put s cid v = some s2 ∧
      AdvCache.LRUCache.containsB s2 cid = true := by
  by_cases hfull : (s.entries.length : Int) ≥ s.capacity
  · have hne : s.entries ≠ [] := by
      intro he
      rw [he] at hfull
      simp only [List.length_nil, Nat.cast_zero, ge_iff_le] at hfull
      omega
    obtain ⟨e, rest, hent⟩ := List.exists_cons_of_ne_nil hne
    have hmiss2 : lookupKV (e :: rest) cid = none := by
      rw [← hent]
      exact hmiss
    have hfull2 : (((e :: rest).length : Nat) : Int) ≥ s.capacity := by
      rw [← hent]
      exact hfull
    refine ⟨{ s with entries := rest ++ [(cid, ⟨v, 0⟩)], evictions := s.evictions + 1 },
      ?_, ?_⟩
    · simp only [AdvCache.LRUCache.put, hent, hmiss2, if_pos hfull2]
    · simp only [AdvCache.LRUCache.containsB]
      rw [lookupKV_append_new (lookupKV_cons_none hmiss2)]
      rfl
  · refine ⟨{ s with entries := s.entries ++ [(cid, ⟨v, 0⟩)] }, ?_, ?_⟩
    · simp only [AdvCache.LRUCache.put, hmiss, if_neg hfull]
    · simp only [AdvCache.LRUCache.containsB]
      rw [lookupKV_append_new hmiss]
      rfl

/-- FIFOCache.put of an absent id succeeds and leaves the id cached,
whenever the capacity is positive. -/
theorem fifo_put_absent_contains {s : AdvCache.BState} (cid : String) (v : PyVal)
    (hpos : 1 ≤ s.capacity) (hmiss : lookupKV s.entries cid = none) :
    ∃ s2, AdvCache.FIFOCache.put s cid v = some s2 ∧
      AdvCache.FIFOCache.containsB s2 cid = true := by
  by_cases hfull : (s.entries.length : Int) ≥ s.capacity
  · have hne : s.entries ≠ [] := by
      intro he
      rw [he] at hfull
      simp only [List.length_nil, Nat.cast_zero, ge_iff_le] at hfull
      omega
    obtain ⟨e, rest, hent⟩ := List.exists_cons_of_ne_nil hne
    have hmiss2 : lookupKV (e :: rest) cid = none := by
      rw [← hent]
      exact hmiss
    have hfull2 : (((e :: rest).length : Nat) : Int) ≥ s.capacity := by
      rw [← hent]
      exact hfull
    refine ⟨{ s with entries := rest ++ [(cid, ⟨v, 0⟩)], evictions := s.evictions + 1 },
      ?_, ?_⟩
    · simp only [AdvCache.FIFOCache.put, hent, hmiss2, if_pos hfull2]
    · simp only [AdvCache.FIFOCache.containsB]
      rw [lookupKV_append_new (lookupKV_cons_none hmiss2)]
      rfl
  · refine ⟨{ s with entries := s.entries ++ [(cid, ⟨v, 0⟩)] }, ?_, ?_⟩
    · simp only [AdvCache.FIFOCache.put, hmiss, if_neg hfull]
    · simp only [AdvCache.FIFOCache.containsB]
      rw [lookupKV_append_new hmiss]
      rfl

/-- LFUCache.put of an absent id stores the id with access count 1 (in
any state in which the put completes). -/
theorem lfu_put_absent_lookup {s : AdvCache.LfuState} (cid : String) (v : PyVal)
    (hmiss : lookupKV s.cache cid = none) {s2 : AdvCache.LfuState}
    (hput : AdvCache.LFUCache.put s cid v = some s2) :
    lookupKV s2.cache cid = some ⟨v, 1⟩ := by
  simp only [AdvCache.LFUCache.put, hmiss] at hput
  by_cases hfull : (s.cache.length : Int) ≥ s.capacity
  · rw [if_pos hfull] at hput
    rcases hfe : AdvCache.LFUCache.findEvict s.freqMap s.minFreq with _ | f
    · simp only [hfe] at hput
      exact Option.noConfusion hput
    · simp only [hfe] at hput
      rcases hb : lookupKV s.freqMap f with _ | b
      · simp only [hb] at hput
        exact Option.noConfusion hput
      · rcases b with _ | ⟨victim, brest⟩
        · simp only [hb] at hput
          exact Option.noConfusion hput
        · simp only [hb, Option.some.injEq] at hput
          subst hput
          show lookupKV (eraseKV s.cache victim ++ [(cid, ⟨v, 1⟩)]) cid = some ⟨v, 1⟩
          exact lookupKV_append_new (lookupKV_eraseKV_of_none hmiss)
  · rw [if_neg hfull] at hput
    simp only [Option.some.injEq] at hput
    subst hput
    show lookupKV (s.cache ++ [(cid, ⟨v, 1⟩)]) cid = some ⟨v, 1⟩
    exact lookupKV_append_new hmiss

/-- LFUCache.put of an absent id succeeds and leaves the id cached,
from any well-formed state within capacity. -/
theorem lfu_put_absent_contains {s : AdvCache.LfuState} (cid : String) (v : PyVal)
    (h : LfuInvC s.capacity s) (hmiss : lookupKV s.cache cid = none) :
    ∃ s2, AdvCache.LFUCache.put s cid v = some s2 ∧
      AdvCache.LFUCache.containsB s2 cid = true := by
  obtain ⟨s2, hput, _, _, _⟩ := lfu_put_spec cid v h
  refine ⟨s2, hput, ?_⟩
  have hl := lfu_put_absent_lookup cid v hmiss hput
  simp only [AdvCache.LFUCache.containsB, hl]
  rfl

/-- An Option whose isSome is false is none. -/
theorem isSome_false_eq_none {α : Type} {o : Option α} (h : o.isSome = false) :
    o = none := by
  cases o with
  | none => rfl
  | some v => simp at h

/-- AdaptiveCache.put of an absent id succeeds and leaves the id
cached, from a well-formed state. -/
theorem ad_put_absent_contains {s : AdvCache.AdState} (cid : String) (v : PyVal)
    (hwf : AdaptiveWF s) (hmiss : AdvCache.AdaptiveCache.containsB s cid = false) :
    ∃ s2, AdvCache.AdaptiveCache.put s cid v = some s2 ∧
      AdvCache.AdaptiveCache.containsB s2 cid = true := by
  cases hcs : s.currentStrategy
  case lru =>
    have hm2 : lookupKV s.lruCache.entries cid = none := by
      apply isSome_false_eq_none
      simpa only [AdvCache.AdaptiveCache.containsB, hcs,
        AdvCache.LRUCache.containsB] using hmiss
    obtain ⟨c2, hput, hcont⟩ := lru_put_absent_contains cid v hwf.1.2.1 hm2
    refine ⟨{ s with lruCache := c2 }, ?_, ?_⟩
    · simp only [AdvCache.AdaptiveCache.put, hcs, hput]
      rfl
    · simp only [AdvCache.AdaptiveCache.containsB, hcs]
      exact hcont
  case lfu =>
    have hm2 : lookupKV s.lfuCache.cache cid = none := by
      apply isSome_false_eq_none
      simpa only [AdvCache.AdaptiveCache.containsB, hcs,
        AdvCache.LFUCache.containsB] using hmiss
    obtain ⟨c2, hput, hcont⟩ := lfu_put_absent_contains cid v hwf.2.1 hm2
    refine ⟨{ s with lfuCache := c2 }, ?_, ?_⟩
    · simp only [AdvCache.AdaptiveCache.put, hcs, hput]
      rfl
    · simp only [AdvCache.AdaptiveCache.containsB, hcs]
      exact hcont
  case fifo =>
    have hm2 : lookupKV s.fifoCache.entries cid = none := by
      apply isSome_false_eq_none
      simpa only [AdvCache.AdaptiveCache.containsB, hcs,
        AdvCache.FIFOCache.containsB] using hmiss
    obtain ⟨c2, hput, hcont⟩ := fifo_put_absent_contains cid v hwf.2.2.1.2.1 hm2
    refine ⟨{ s with fifoCache := c2 }, ?_, ?_⟩
    · simp only [AdvCache.AdaptiveCache.put, hcs, hput]
      rfl
    · simp only [AdvCache.AdaptiveCache.containsB, hcs]
      exact hcont

/-- cache_policy.put of an absent id succeeds and leaves the id
cached, from a well-formed policy. -/
theorem poly_put_absent {p : Constellation.Policy} (cid : String) (v : PyVal)
    (hwf : PolicyWF p) (hmiss : p.containsB cid = false) :
    ∃ p2, p.putP cid v = some p2 ∧ p2.containsB cid = true := by
  cases p with
  | lru s =>
    have hm2 : lookupKV s.entries cid = none := by
      apply isSome_false_eq_none
      simpa only [Constellation.Policy.containsB, AdvCache.LRUCache.containsB] using hmiss
    obtain ⟨s2, hput, hcont⟩ := lru_put_absent_contains cid v hwf.2.1 hm2
    exact ⟨.lru s2, by simp [Constellation.Policy.putP, hput],
      by simpa [Constellation.Policy.containsB] using hcont⟩
  | lfu s =>
    have hm2 : lookupKV s.cache cid = none := by
      apply isSome_false_eq_none
      simpa only [Constellation.Policy.containsB, AdvCache.LFUCache.containsB] using hmiss
    obtain ⟨s2, hput, hcont⟩ := lfu_put_absent_contains cid v hwf hm2
    exact ⟨.lfu s2, by simp [Constellation.Policy.putP, hput],
      by simpa [Constellation.Policy.containsB] using hcont⟩
  | fifo s =>
    have hm2 : lookupKV s.entries cid = none := by
      apply isSome_false_eq_none
      simpa only [Constellation.Policy.containsB, AdvCache.FIFOCache.containsB] using hmiss
    obtain ⟨s2, hput, hcont⟩ := fifo_put_absent_contains cid v hwf.2.1 hm2
    exact ⟨.fifo s2, by simp [Constellation.Policy.putP, hput],
      by simpa [Constellation.Policy.containsB] using hcont⟩
  | adaptive s =>
    obtain ⟨s2, hput, hcont⟩ := ad_put_absent_contains cid v hwf
      (by simpa [Constellation.Policy.containsB] using hmiss)
    exact ⟨.adaptive s2, by simp [Constellation.Policy.putP, hput],
      by simpa [Constellation.Policy.containsB] using hcont⟩

/-- Membership through stable insertion. -/
theorem mem_insertSorted {α : Type} {x a : ℚ × α} {l : List (ℚ × α)} :
    a ∈ Constellation.insertSorted x l ↔ a = x ∨ a ∈ l := by
  induction l with
  | nil => simp [Constellation.insertSorted]
  | cons y ys ih =>
    simp only [Constellation.insertSorted]
    by_cases h : x.1 ≤ y.1
    · simp [h, List.mem_cons]
    · simp only [h, if_false, List.mem_cons, ih]
      tauto

/-- The stable sort is a permutation of its input. -/
theorem sortByFst_perm {α : Type} (l : List (ℚ × α)) :
    List.Perm (Constellation.sortByFst l) l := by
  induction l with
  | nil => exact List.Perm.refl _
  | cons x xs ih =>
    have hins : ∀ (m : List (ℚ × α)), List.Perm (Constellation.insertSorted x m) (x :: m) := by
      intro m
      induction m with
      | nil => exact List.Perm.refl _
      | cons y ys ihm =>
        simp only [Constellation.insertSorted]
        by_cases h : x.1 ≤ y.1
        · rw [if_pos h]
        · rw [if_neg h]
          exact (List.Perm.cons y ihm).trans (List.Perm.swap x y ys)
    exact (hins (Constellation.sortByFst xs)).trans (List.Perm.cons x ih)

/-- The stable sort is ascending in the first component. -/
theorem sortByFst_pairwise {α : Type} (l : List (ℚ × α)) :
    (Constellation.sortByFst l).Pairwise (fun a b => a.1 ≤ b.1) := by
  induction l with
  | nil => simp [Constellation.sortByFst]
  | cons x xs ih =>
    have hins : ∀ (m : List (ℚ × α)), m.Pairwise (fun a b => a.1 ≤ b.1) →
        (Constellation.insertSorted x m).Pairwise (fun a b => a.1 ≤ b.1) := by
      intro m
      induction m with
      | nil => simp [Constellation.insertSorted]
      | cons y ys ihm =>
        intro hp
        rw [List.pairwise_cons] at hp
        simp only [Constellation.insertSorted]
        by_cases h : x.1 ≤ y.1
        · rw [if_pos h, List.pairwise_cons]
          refine ⟨?_, List.pairwise_cons.mpr hp⟩
          intro a ha
          rcases List.mem_cons.mp ha with ha | ha
          · rw [ha]
            exact h
          · exact le_trans h (hp.1 a ha)
        · rw [if_neg h, List.pairwise_cons]
          refine ⟨?_, ihm hp.2⟩
          intro a ha
          rcases mem_insertSorted.mp ha with ha | ha
          · rw [ha]
            exact le_of_not_le h
          · exact hp.1 a ha
    exact hins (Constellation.sortByFst xs) ih

/-- Every element of get_nearest_satellites is a distinct in-threshold
member of the constellation, tagged by its true (squared) distance in
the sorted pair list. -/
theorem mem_getNearest {sats : List Constellation.CSat} {ref : Constellation.CSat}
    {maxD : ℚ} {t : Constellation.CSat}
    (h : t ∈ Constellation.getNearestSatellites sats ref maxD) :
    t ∈ sats ∧ t.satelliteId ≠ ref.satelliteId ∧
    ref.position.distSqTo t.position ≤ maxD * maxD := by
  simp only [Constellation.getNearestSatellites, List.mem_map] at h
  obtain ⟨⟨d, t2⟩, hmem, ht2⟩ := h
  have hmem2 := (List.take_sublist 3 _).subset hmem
  have hmem3 := (sortByFst_perm _).subset hmem2
  simp only [List.mem_filterMap] at hmem3
  obtain ⟨t3, ht3, heq⟩ := hmem3
  by_cases hid : t3.satelliteId = ref.satelliteId
  · rw [if_pos hid] at heq
    exact Option.noConfusion heq
  · rw [if_neg hid] at heq
    by_cases hd : ref.position.distSqTo t3.position ≤ maxD * maxD
    · rw [if_pos hd] at heq
      injection heq with heq
      injection heq with heq1 heq2
      cases ht2
      cases heq2
      exact ⟨ht3, hid, hd⟩
    · rw [if_neg hd] at heq
      exact Option.noConfusion heq

/-- Every pair in the filtered distance list carries the true squared
distance of its satellite. -/
theorem getNearest_dist_tag {sats : List Constellation.CSat} {ref : Constellation.CSat}
    {maxD : ℚ} {d : ℚ} {t : Constellation.CSat}
    (h : (d, t) ∈ (sats.filterMap fun t2 =>
      if t2.satelliteId = ref.satelliteId then none
      else
        if ref.position.distSqTo t2.position ≤ maxD * maxD then
          some (ref.position.distSqTo t2.position, t2) else none)) :
    d = ref.position.distSqTo t.position := by
  simp only [List.mem_filterMap] at h
  obtain ⟨t3, ht3, heq⟩ := h
  by_cases hid : t3.satelliteId = ref.satelliteId
  · rw [if_pos hid] at heq
    exact Option.noConfusion heq
  · rw [if_neg hid] at heq
    by_cases hd : ref.position.distSqTo t3.position ≤ maxD * maxD
    · rw [if_pos hd] at heq
      injection heq with heq
      injection heq with heq1 heq2
      cases heq2
      exact heq1.symm
    · rw [if_neg hd] at heq
      exact Option.noConfusion heq

/-- get_nearest_satellites returns at most 3 satellites, in ascending
distance order. -/
theorem getNearest_shape (sats : List Constellation.CSat) (ref : Constellation.CSat)
    (maxD : ℚ) :
    (Constellation.getNearestSatellites sats ref maxD).length ≤ 3 ∧
    (Constellation.getNearestSatellites sats ref maxD).Pairwise
      (fun a b => ref.position.distSqTo a.position ≤ ref.position.distSqTo b.position) := by
  constructor
  · simp only [Constellation.getNearestSatellites, List.length_map]
    rw [List.length_take]
    exact min_le_left _ _
  · simp only [Constellation.getNearestSatellites]
    rw [List.pairwise_map]
    have hpw := @sortByFst_pairwise Constellation.CSat
      (sats.filterMap fun t2 =>
        if t2.satelliteId = ref.satelliteId then none
        else
          if ref.position.distSqTo t2.position ≤ maxD * maxD then
            some (ref.position.distSqTo t2.position, t2) else none)
    have htake := hpw.sublist (List.take_sublist 3 _)
    refine htake.imp_of_mem ?_
    intro a b ha hb hab
    have ha2 := (sortByFst_perm _).subset ((List.take_sublist 3 _).subset ha)
    have hb2 := (sortByFst_perm _).subset ((List.take_sublist 3 _).subset hb)
    rcases a with ⟨da, ta⟩
    rcases b with ⟨db, tb⟩
    rw [getNearest_dist_tag ha2] at hab
    rw [getNearest_dist_tag hb2] at hab
    exact hab

/-- The probe loop: when no listed neighbor carries the requester's id
and some neighbor contains the content, the first such neighbor is
found, splitting the list around it. -/
theorem findDonor_split {l : List Constellation.CSat} {selfId cid : String}
    (hne : ∀ n ∈ l, n.satelliteId ≠ selfId)
    (hex : ∃ n ∈ l, n.cachePolicy.containsB cid = true) :
    ∃ donor pre post, l = pre ++ donor :: post ∧
      Constellation.findDonor l selfId cid = some donor ∧
      (∀ n ∈ pre, n.cachePolicy.containsB cid = false) ∧
      donor.cachePolicy.containsB cid = true := by
  induction l with
  | nil => simp at hex
  | cons n t ih =>
    have hns : n.satelliteId ≠ selfId := hne n (List.mem_cons_self n t)
    by_cases hc : n.cachePolicy.containsB cid = true
    · refine ⟨n, [], t, by simp, ?_, by simp, hc⟩
      simp only [Constellation.findDonor, hns, if_false, hc, if_true]
    · have hex2 : ∃ m ∈ t, m.cachePolicy.containsB cid = true := by
        rcases hex with ⟨m, hm, hmc⟩
        rcases List.mem_cons.mp hm with hm | hm
        · rw [hm] at hmc
          exact absurd hmc hc
        · exact ⟨m, hm, hmc⟩
      obtain ⟨donor, pre, post, hsplit, hfind, hpre, hdc⟩ :=
        ih (fun m hm => hne m (List.mem_cons_of_mem n hm)) hex2
      refine ⟨donor, n :: pre, post, by rw [hsplit]; rfl, ?_, ?_, hdc⟩
      · simp only [Constellation.findDonor, hns, if_false]
        rw [if_neg hc]
        exact hfind
      · intro m hm
        rcases List.mem_cons.mp hm with hm | hm
        · rw [hm]
          exact Bool.not_eq_true _ ▸ (by simpa using hc)
        · exact hpre m hm

/-- Updating a satellite with a fresh id keeps other satellites in
place, and places the replacement wherever the id occurred. -/
theorem mem_updateSat_self {sats : List Constellation.CSat} {t : Constellation.CSat}
    {t2 : Constellation.CSat} (hm : t ∈ sats) :
    t2 ∈ Constellation.updateSat sats t.satelliteId t2 := by
  simp only [Constellation.updateSat, List.mem_map]
  exact ⟨t, hm, by rw [if_pos rfl]⟩

/-- A satellite whose id differs from the updated one is untouched by
updateSat. -/
theorem mem_updateSat_other {sats : List Constellation.CSat} {t : Constellation.CSat}
    {sid : String} {t2 : Constellation.CSat} (hm : t ∈ sats)
    (hid : t.satelliteId ≠ sid) :
    t ∈ Constellation.updateSat sats sid t2 := by
  simp only [Constellation.updateSat, List.mem_map]
  exact ⟨t, hm, by rw [if_neg hid]⟩

/-! ## Claim C8: neighbor hit protocol -/

/-- Claim C8 (amended).  On a local miss, the candidate list
get_nearest_satellites holds at most 3 satellites, each a distinct
in-threshold member of the constellation, in ascending distance order;
provided some CANDIDATE (not merely some in-threshold satellite: a
within-threshold holder ranked 4th-nearest or worse is never probed)
contains the id, the first such candidate becomes the donor: every
candidate before it fails the contains test, the content is pulled
through the donor's own get (the donor's hit counter advances by 1),
stored into the requester's cache (which then contains the id), the
requester's inter-satellite counters advance, and the returned record
names the donor and its distance. -/
theorem spec_C8 {sats : List Constellation.CSat} {x : Constellation.CSat}
    {cid : String} (content : PyVal)
    (hx : x ∈ sats)
    (hwfall : ∀ t ∈ sats, PolicyWF t.cachePolicy)
    (hmiss : x.cachePolicy.containsB cid = false)
    (hdon : ∃ n ∈ Constellation.getNearestSatellites sats x 1000,
      n.cachePolicy.containsB cid = true) :
    (Constellation.getNearestSatellites sats x 1000).length ≤ 3 ∧
    (Constellation.getNearestSatellites sats x 1000).Pairwise
      (fun a b => x.position.distSqTo a.position ≤ x.position.distSqTo b.position) ∧
    (∀ n ∈ Constellation.getNearestSatellites sats x 1000,
      n ∈ sats ∧ n.satelliteId ≠ x.satelliteId ∧
      x.position.distSqTo n.position ≤ 1000 * 1000) ∧
    ∃ donor pre post,
      Constellation.getNearestSatellites sats x 1000 = pre ++ donor :: post ∧
      (∀ n ∈ pre, n.cachePolicy.containsB cid = false) ∧
      donor.cachePolicy.containsB cid = true ∧
      ∃ res sats2 x2,
        Constellation.requestContentFromNeighbor sats x cid content =
          some (some res, sats2, x2) ∧
        res.sourceSatellite = donor.satelliteId ∧
        res.distanceSq = x.position.distSqTo donor.position ∧
        x2.satelliteId = x.satelliteId ∧
        x2.interSatelliteHits = x.interSatelliteHits + 1 ∧
        x2.interSatelliteRequests = x.interSatelliteRequests + 1 ∧
        x2.cachePolicy.containsB cid = true ∧
        x2 ∈ sats2 ∧
        ∃ d2 ∈ sats2, d2.satelliteId = donor.satelliteId ∧
          d2.cachePolicy.hitsP = donor.cachePolicy.hitsP + 1 := by
  have hshape := getNearest_shape sats x 1000
  refine ⟨hshape.1, hshape.2, fun n hn => mem_getNearest hn, ?_⟩
  have hne : ∀ n ∈ Constellation.getNearestSatellites sats x 1000,
      n.satelliteId ≠ x.satelliteId := fun n hn => (mem_getNearest hn).2.1
  obtain ⟨donor, pre, post, hsplit, hfind, hpre, hdc⟩ := findDonor_split hne hdon
  have hdonmem : donor ∈ Constellation.getNearestSatellites sats x 1000 := by
    rw [hsplit]
    exact List.mem_append_right _ (List.mem_cons_self _ _)
  obtain ⟨hdsats, hdne, hddist⟩ := mem_getNearest hdonmem
  have hwx : PolicyWF x.cachePolicy := hwfall x hx
  obtain ⟨xpol, hput, hcont⟩ := poly_put_absent cid
    ((donor.cachePolicy.getP cid).1.getD content) hwx hmiss
  refine ⟨donor, pre, post, hsplit, hpre, hdc, ?_⟩
  refine ⟨⟨donor.satelliteId, x.position.distSqTo donor.position⟩, Constellation.updateSat (Constellation.updateSat sats donor.satelliteId { donor with cachePolicy := (donor.cachePolicy.getP cid).2 }) x.satelliteId { x with cachePolicy := xpol, interSatelliteRequests := x.interSatelliteRequests + 1, interSatelliteHits := x.interSatelliteHits + 1 }, { x with cachePolicy := xpol, interSatelliteRequests := x.interSatelliteRequests + 1, interSatelliteHits := x.interSatelliteHits + 1 }, ?_, rfl, rfl, rfl, rfl, rfl, hcont, ?_, ?_⟩
  · simp only [Constellation.requestContentFromNeighbor, hfind]
    simp only [hput]
  · exact mem_updateSat_self (mem_updateSat_other hx hdne.symm)
  · refine ⟨{ donor with cachePolicy := (donor.cachePolicy.getP cid).2 }, ?_, rfl, ?_⟩
    · exact mem_updateSat_other (mem_updateSat_self hdsats) hdne
    · exact poly_get_hit (hwfall donor hdsats) hdc

/-- Requester of the concrete C8 scenarios: empty capacity-1 LRU cache
at latitude 0. -/
def satXC : Constellation.CSat :=
  { satelliteId := "X", position := { latitude := 0, longitude := 0, altitude := 550 },
    cachePolicy := .lru (AdvCache.LRUCache.init 1),
    interSatelliteRequests := 0, interSatelliteHits := 0 }

/-- Neighbor builder of the concrete C8 scenarios: a capacity-5 LRU
cache with the given entries, at the given latitude, sharing the
requester's longitude and altitude (so its squared distance to the
requester is the latitude difference squared). -/
def mkYC (sid : String) (lat : ℚ) (ents : List (String × AdvCache.Item)) :
    Constellation.CSat :=
  { satelliteId := sid, position := { latitude := lat, longitude := 0, altitude := 550 },
    cachePolicy := .lru { capacity := 5, entries := ents, hits := 0, misses := 0,
                          evictions := 0 },
    interSatelliteRequests := 0, interSatelliteHits := 0 }

/-- Empty neighbor at distance 1. -/
def satY1C : Constellation.CSat := mkYC "Y1" 1 []

/-- Empty neighbor at distance 2. -/
def satY2C : Constellation.CSat := mkYC "Y2" 2 []

/-- Empty neighbor at distance 3. -/
def satY3C : Constellation.CSat := mkYC "Y3" 3 []

/-- Neighbor at distance 4 caching the id "a": in threshold, but
ranked 4th nearest. -/
def satY4C : Constellation.CSat := mkYC "Y4" 4 [("a", ⟨PyVal.int 7, 0⟩)]

/-- Constellation of the C8 counterexample: the only holder of "a" is
the 4th-nearest in-threshold satellite. -/
def satsC : List Constellation.CSat := [satXC, satY1C, satY2C, satY3C, satY4C]

/-- Neighbor at distance 1 caching the id "a", for the C8 witness. -/
def satYW : Constellation.CSat := mkYC "Y1" 1 [("a", ⟨PyVal.int 7, 0⟩)]

/-- Two-satellite constellation of the C8 witness. -/
def satsW : List Constellation.CSat := [satXC, satYW]

/-- Counterexample to the claim as stated: satellite Y4 is within the
1000-unit threshold and caches "a", the requester X misses locally,
yet no neighbor hit occurs, because get_nearest_satellites truncates
to the 3 nearest ([Y1, Y2, Y3], none of which holds "a") and Y4 is
never probed; afterwards X's cache still lacks "a". -/
theorem spec_C8_cex :
    satY4C ∈ satsC ∧
    satY4C.satelliteId ≠ satXC.satelliteId ∧
    satXC.position.distSqTo satY4C.position ≤ 1000 * 1000 ∧
    satY4C.cachePolicy.containsB "a" = true ∧
    satXC.cachePolicy.containsB "a" = false ∧
    Constellation.getNearestSatellites satsC satXC 1000 = [satY1C, satY2C, satY3C] ∧
    satY1C.cachePolicy.containsB "a" = false ∧
    satY2C.cachePolicy.containsB "a" = false ∧
    satY3C.cachePolicy.containsB "a" = false ∧
    ∃ sats2 x2,
      Constellation.requestContentFromNeighbor satsC satXC "a" (PyVal.int 7) =
        some (none, sats2, x2) ∧
      x2.cachePolicy.containsB "a" = false := by
  have hnear : Constellation.getNearestSatellites satsC satXC 1000 =
      [satY1C, satY2C, satY3C] := by
    norm_num [Constellation.getNearestSatellites, satsC, satXC, satY1C, satY2C,
      satY3C, satY4C, mkYC, Constellation.Position.distSqTo, Constellation.sortByFst,
      Constellation.insertSorted, List.filterMap_cons]
  have hfind : Constellation.findDonor [satY1C, satY2C, satY3C]
      satXC.satelliteId "a" = none := by decide
  refine ⟨?_, by decide, ?_, by decide, by decide, hnear, by decide, by decide,
    by decide, ?_⟩
  · simp only [satsC]
    exact List.mem_cons_of_mem _ (List.mem_cons_of_mem _ (List.mem_cons_of_mem _
      (List.mem_cons_of_mem _ (List.mem_cons_self _ _))))
  · norm_num [satXC, satY4C, mkYC, Constellation.Position.distSqTo]
  · refine ⟨Constellation.updateSat satsC satXC.satelliteId { satXC with interSatelliteRequests := satXC.interSatelliteRequests + 1 }, { satXC with interSatelliteRequests := satXC.interSatelliteRequests + 1 }, ?_, by decide⟩
    simp only [Constellation.requestContentFromNeighbor, hnear, hfind]

/-- Witness for C8 on the two-satellite constellation: X misses "a"
locally, its sole candidate Y1 holds it, and the amended claim's full
conclusion follows. -/
theorem spec_C8_witness :
    satXC ∈ satsW ∧
    satXC.cachePolicy.containsB "a" = false ∧
    (∃ n ∈ Constellation.getNearestSatellites satsW satXC 1000,
      n.cachePolicy.containsB "a" = true) ∧
    ((Constellation.getNearestSatellites satsW satXC 1000).length ≤ 3 ∧
     (Constellation.getNearestSatellites satsW satXC 1000).Pairwise
       (fun a b => satXC.position.distSqTo a.position ≤ satXC.position.distSqTo b.position) ∧
     (∀ n ∈ Constellation.getNearestSatellites satsW satXC 1000,
       n ∈ satsW ∧ n.satelliteId ≠ satXC.satelliteId ∧
       satXC.position.distSqTo n.position ≤ 1000 * 1000) ∧
     ∃ donor pre post,
       Constellation.getNearestSatellites satsW satXC 1000 = pre ++ donor :: post ∧
       (∀ n ∈ pre, n.cachePolicy.containsB "a" = false) ∧
       donor.cachePolicy.containsB "a" = true ∧
       ∃ res sats2 x2,
         Constellation.requestContentFromNeighbor satsW satXC "a" (PyVal.int 7) =
           some (some res, sats2, x2) ∧
         res.sourceSatellite = donor.satelliteId ∧
         res.distanceSq = satXC.position.distSqTo donor.position ∧
         x2.satelliteId = satXC.satelliteId ∧
         x2.interSatelliteHits = satXC.interSatelliteHits + 1 ∧
         x2.interSatelliteRequests = satXC.interSatelliteRequests + 1 ∧
         x2.cachePolicy.containsB "a" = true ∧
         x2 ∈ sats2 ∧
         ∃ d2 ∈ sats2, d2.satelliteId = donor.satelliteId ∧
           d2.cachePolicy.hitsP = donor.cachePolicy.hitsP + 1) := by
  have hx : satXC ∈ satsW := by
    simp only [satsW]
    exact List.mem_cons_self _ _
  have hwfall : ∀ t ∈ satsW, PolicyWF t.cachePolicy := by
    intro t ht
    simp only [satsW, List.mem_cons, List.not_mem_nil, or_false] at ht
    rcases ht with h | h
    · subst h
      exact ⟨rfl, by decide, by decide, by decide⟩
    · subst h
      exact ⟨rfl, by decide, by decide, by decide⟩
  have hmiss : satXC.cachePolicy.containsB "a" = false := by decide
  have hnearW : Constellation.getNearestSatellites satsW satXC 1000 = [satYW] := by
    norm_num [Constellation.getNearestSatellites, satsW, satXC, satYW, mkYC,
      Constellation.Position.distSqTo, Constellation.sortByFst,
      Constellation.insertSorted, List.filterMap_cons]
  have hdon : ∃ n ∈ Constellation.getNearestSatellites satsW satXC 1000,
      n.cachePolicy.containsB "a" = true := by
    rw [hnearW]
    exact ⟨satYW, List.mem_cons_self _ _, by decide⟩
  exact ⟨hx, hmiss, hdon, spec_C8 (PyVal.int 7) hx hwfall hmiss hdon⟩
